import Mathlib

/-!
Verification of the Schema-Learning & Cross-Referential Validation Engine
(a JSON/XLSX transform CLI).  The TypeScript sources are shallowly embedded:
JSON values become the inductive type Val, JS objects become association
lists in insertion order, and each function (flattenObject, unflattenObject,
levenshteinDistance, findClosestMatches, loadFieldOptions, validateData,
extractUniqueValues, updateAvailableOptions, buildTaskProductProducers,
buildTaskProductEnhancements, and the transform_from_json pipeline loop) is
translated into an executable Lean definition.
-/

/-- A JSON-like value, as manipulated by the transform tool.  JS
undefined is represented by absence (Option), null by the null
constructor.  Dates do not occur in this data set and are omitted. -/
inductive Val where
  | null
  | bool (b : Bool)
  | str (s : String)
  | num (n : Int)
  | arr (elems : List Val)
  | obj (fields : List (String × Val))

mutual

def Val.beq : Val → Val → Bool
  | .null, .null => true
  | .bool a, .bool b => a == b
  | .str a, .str b => a == b
  | .num a, .num b => a == b
  | .arr a, .arr b => Val.beqList a b
  | .obj a, .obj b => Val.beqFields a b
  | _, _ => false

def Val.beqList : List Val → List Val → Bool
  | [], [] => true
  | a :: as, b :: bs => Val.beq a b && Val.beqList as bs
  | _, _ => false

def Val.beqFields : List (String × Val) → List (String × Val) → Bool
  | [], [] => true
  | (k, v) :: as, (l, w) :: bs => k == l && Val.beq v w && Val.beqFields as bs
  | _, _ => false

end

mutual

theorem Val.eq_of_beq : ∀ {a b : Val}, Val.beq a b = true → a = b
  | .null, .null, _ => rfl
  | .bool _, .bool _, h => by
      simp only [Val.beq, beq_iff_eq] at h; exact congrArg Val.bool h
  | .str _, .str _, h => by
      simp only [Val.beq, beq_iff_eq] at h; exact congrArg Val.str h
  | .num _, .num _, h => by
      simp only [Val.beq, beq_iff_eq] at h; exact congrArg Val.num h
  | .arr _, .arr _, h => by
      simp only [Val.beq] at h; exact congrArg Val.arr (Val.eqList_of_beqList h)
  | .obj _, .obj _, h => by
      simp only [Val.beq] at h; exact congrArg Val.obj (Val.eqFields_of_beqFields h)

theorem Val.eqList_of_beqList : ∀ {a b : List Val}, Val.beqList a b = true → a = b
  | [], [], _ => rfl
  | a :: as, b :: bs, h => by
      simp only [Val.beqList, Bool.and_eq_true] at h
      rw [Val.eq_of_beq h.1, Val.eqList_of_beqList h.2]

theorem Val.eqFields_of_beqFields :
    ∀ {a b : List (String × Val)}, Val.beqFields a b = true → a = b
  | [], [], _ => rfl
  | (k, v) :: as, (l, w) :: bs, h => by
      simp only [Val.beqFields, Bool.and_eq_true, beq_iff_eq] at h
      rw [h.1.1, Val.eq_of_beq h.1.2, Val.eqFields_of_beqFields h.2]

end

mutual

theorem Val.beq_refl : ∀ (a : Val), Val.beq a a = true
  | .null => rfl
  | .bool b => by simp [Val.beq]
  | .str s => by simp [Val.beq]
  | .num n => by simp [Val.beq]
  | .arr xs => by simp only [Val.beq]; exact Val.beqList_refl xs
  | .obj fs => by simp only [Val.beq]; exact Val.beqFields_refl fs

theorem Val.beqList_refl : ∀ (a : List Val), Val.beqList a a = true
  | [] => rfl
  | a :: as => by
      simp only [Val.beqList, Bool.and_eq_true]
      exact ⟨Val.beq_refl a, Val.beqList_refl as⟩

theorem Val.beqFields_refl : ∀ (a : List (String × Val)), Val.beqFields a a = true
  | [] => rfl
  | (k, v) :: as => by
      simp [Val.beqFields, Val.beq_refl v, Val.beqFields_refl as]

end

instance : DecidableEq Val := fun a b =>
  if h : Val.beq a b = true then .isTrue (Val.eq_of_beq h)
  else .isFalse (fun he => h (he ▸ Val.beq_refl a))

/-- JS truthiness of a value (null, empty string, 0 and false are falsy;
arrays and objects are always truthy). -/
def jsTruthy : Val → Bool
  | .null => false
  | .bool b => b
  | .str s => !(s == "")
  | .num n => !(n == 0)
  | .arr _ => true
  | .obj _ => true

mutual

/-- JS String() conversion of an array element inside Array.toString:
null elements render as the empty string. -/
def jsElemToString : Val → String
  | .null => ""
  | .bool b => if b then "true" else "false"
  | .str s => s
  | .num n => toString n
  | .arr xs => jsArrToString xs
  | .obj _ => "[object Object]"

/-- JS Array.prototype.toString: elements joined with a bare comma. -/
def jsArrToString : List Val → String
  | [] => ""
  | [v] => jsElemToString v
  | v :: rest => jsElemToString v ++ "," ++ jsArrToString rest

end

/-- JS String(value) conversion. -/
def jsToString : Val → String
  | .null => "null"
  | .bool b => if b then "true" else "false"
  | .str s => s
  | .num n => toString n
  | .arr xs => jsArrToString xs
  | .obj _ => "[object Object]"

/-- Escape one character for a JSON string literal (the cases produced by
JSON.stringify on this data). -/
def jsonEscapeChar (c : Char) : List Char :=
  if c = '"' then ['\\', '"']
  else if c = '\\' then ['\\', '\\']
  else if c = '\n' then ['\\', 'n']
  else if c = '\t' then ['\\', 't']
  else if c = '\r' then ['\\', 'r']
  else [c]

def jsonQuote (s : String) : String :=
  "\"" ++ String.mk (s.data.foldr (fun c acc => jsonEscapeChar c ++ acc) []) ++ "\""

mutual

/-- JSON.stringify(value) (used by flattenObject only for arrays that
contain non-primitive entries). -/
def jsonStringify : Val → String
  | .null => "null"
  | .bool b => if b then "true" else "false"
  | .str s => jsonQuote s
  | .num n => toString n
  | .arr xs => "[" ++ jsonStringifyList xs ++ "]"
  | .obj fs => "\x7b" ++ jsonStringifyFields fs ++ "\x7d"

def jsonStringifyList : List Val → String
  | [] => ""
  | [v] => jsonStringify v
  | v :: rest => jsonStringify v ++ "," ++ jsonStringifyList rest

def jsonStringifyFields : List (String × Val) → String
  | [] => ""
  | [(k, v)] => jsonQuote k ++ ":" ++ jsonStringify v
  | (k, v) :: rest => jsonQuote k ++ ":" ++ jsonStringify v ++ "," ++ jsonStringifyFields rest

end

/-- Whitespace as trimmed by JS String.prototype.trim (ASCII subset; the
exotic Unicode space separators do not occur in this data). -/
def isJsWhitespace (c : Char) : Bool :=
  c = ' ' || c = '\t' || c = '\n' || c = '\r' || c = '\x0b' || c = '\x0c'

/-- JS String.prototype.trim. -/
def jsTrim (s : String) : String :=
  String.mk (((s.data.dropWhile isJsWhitespace).reverse.dropWhile isJsWhitespace).reverse)

/-- List-of-chars core of JS Array.prototype.join(", "). -/
def joinCS : List (List Char) → List Char
  | [] => []
  | [s] => s
  | s :: rest => s ++ ',' :: ' ' :: joinCS rest

/-- JS Array.prototype.join(", ") on a list of strings. -/
def jsJoin (ss : List String) : String :=
  String.mk (joinCS (ss.map String.data))

/-- List-of-chars core of JS String.prototype.split(", "): scan left to
right, cutting at each occurrence of the two-character separator. -/
def splitCS : List Char → List (List Char)
  | [] => [[]]
  | ',' :: ' ' :: rest => [] :: splitCS rest
  | c :: rest =>
    match splitCS rest with
    | t :: ts => (c :: t) :: ts
    | [] => [[c]]

/-- JS String.prototype.split(", "). -/
def jsSplit (s : String) : List String :=
  (splitCS s.data).map String.mk

/-- JS object property assignment o[k] = v: overwrite in place if the key
exists, else append the key at the end (JS insertion-order semantics). -/
def setKey (m : List (String × Val)) (k : String) (v : Val) : List (String × Val) :=
  match m with
  | [] => [(k, v)]
  | (k1, v1) :: rest => if k1 = k then (k, v) :: rest else (k1, v1) :: setKey rest k v

/-- Object.assign(acc, other): copy every field of other into acc. -/
def assignAll (acc : List (String × Val)) : List (String × Val) → List (String × Val)
  | [] => acc
  | (k, v) :: rest => assignAll (setKey acc k v) rest

/-- Whether an array element is a JS string or number
(typeof item === string || typeof item === number). -/
def isPrimitiveCell : Val → Bool
  | .str _ => true
  | .num _ => true
  | _ => false

/-- How flattenObject renders an array cell: empty array becomes the empty
string, an array of primitives is joined with comma-space, anything else
is JSON.stringified. -/
def flattenArrayCell (xs : List Val) : String :=
  if xs.isEmpty then ""
  else if xs.all isPrimitiveCell then jsJoin (xs.map jsToString)
  else jsonStringify (.arr xs)

/-- The value flattenObject stores for a non-object field: null becomes the
empty string, arrays become their joined/stringified form, primitives are
copied as-is. -/
def flatVal : Val → Val
  | .null => .str ""
  | .arr xs => .str (flattenArrayCell xs)
  | v => v

/-- flattenObject from src: iterate the fields in order; nested objects
recurse with the dotted prefix and are merged into the accumulator with
Object.assign; every other value is stored under the prefixed key. -/
def flattenObjectAux : List (String × Val) → String → List (String × Val) → List (String × Val)
  | [], _, acc => acc
  | (key, v) :: rest, pre, acc =>
    let newKey := if pre = "" then key else pre ++ "." ++ key
    match v with
    | .obj g => flattenObjectAux rest pre (assignAll acc (flattenObjectAux g newKey []))
    | .null => flattenObjectAux rest pre (setKey acc newKey (flatVal .null))
    | .bool b => flattenObjectAux rest pre (setKey acc newKey (flatVal (.bool b)))
    | .str s => flattenObjectAux rest pre (setKey acc newKey (flatVal (.str s)))
    | .num n => flattenObjectAux rest pre (setKey acc newKey (flatVal (.num n)))
    | .arr xs => flattenObjectAux rest pre (setKey acc newKey (flatVal (.arr xs)))
termination_by l _ _ => sizeOf l
decreasing_by
  all_goals simp_wf
  all_goals omega

def flattenObject (o : List (String × Val)) (pre : String) : List (String × Val) :=
  flattenObjectAux o pre []

/-- Registered array fields: the keys unflattenObject always decodes back
into arrays. -/
def arrayFields : List String := ["inputs", "outputs", "responsibility_options", "enhancement-order"]

/-- The value unflattenObject stores for one field: registered array fields
decode the empty string (or null) to an empty array and split other strings
on comma-space, trimming each element and dropping empties; everything else
is kept as-is. -/
def unflatVal (k : String) (v : Val) : Val :=
  if arrayFields.contains k then
    match v with
    | .str s =>
      if s = "" then .arr []
      else .arr ((((jsSplit s).map jsTrim).filter (fun t => t != "")).map Val.str)
    | .null => .arr []
    | v => v
  else v

/-- unflattenObject from src: rebuild the object field by field. -/
def unflattenObject (o : List (String × Val)) : List (String × Val) :=
  o.foldl (fun result kv => setKey result kv.1 (unflatVal kv.1 kv.2)) []

example : flattenObject [("inputs", .arr [.str "a", .str "b"]), ("outputs", .arr [])] ""
    = [("inputs", .str "a, b"), ("outputs", .str "")] := by
  simp only [flattenObject, flattenObjectAux, setKey, flatVal]
  decide

example : unflattenObject [("inputs", .str "a, b"), ("outputs", .str "")]
    = [("inputs", .arr [.str "a", .str "b"]), ("outputs", .arr [])] := by decide

example : unflattenObject (flattenObject [("inputs", .arr [.str " a"])] "")
    = [("inputs", .arr [.str "a"])] := by
  simp only [flattenObject, flattenObjectAux, setKey, flatVal]
  decide

lemma splitCS_ne_nil (l : List Char) : splitCS l ≠ [] := by
  induction l using splitCS.induct with
  | case1 => simp [splitCS]
  | case2 rest ih => simp [splitCS]
  | case3 c rest hne t ts heq ih =>
    rw [splitCS.eq_def]
    split <;> (try split) <;> simp_all
  | case4 c rest hne heq ih => exact absurd heq ih

lemma splitCS_cons {c : Char} {rest t : List Char} {ts : List (List Char)}
    (hc : c ≠ ',') (h : splitCS rest = t :: ts) :
    splitCS (c :: rest) = (c :: t) :: ts := by
  rw [splitCS.eq_def]
  split <;> simp_all

lemma splitCS_no_comma {l : List Char} (h : ',' ∉ l) : splitCS l = [l] := by
  induction l with
  | nil => simp [splitCS]
  | cons c rest ih =>
    have hc : c ≠ ',' := fun he => h (he ▸ List.mem_cons_self c rest)
    exact splitCS_cons hc (ih (fun hm => h (List.mem_cons_of_mem c hm)))

lemma splitCS_append {x : List Char} (t : List Char) (h : ',' ∉ x) :
    splitCS (x ++ ',' :: ' ' :: t) = x :: splitCS t := by
  induction x with
  | nil => simp [splitCS]
  | cons c x ih =>
    have hc : c ≠ ',' := fun he => h (he ▸ List.mem_cons_self c x)
    simpa using splitCS_cons hc (ih (fun hm => h (List.mem_cons_of_mem c hm)))

lemma splitCS_joinCS : ∀ (ll : List (List Char)), (∀ l ∈ ll, ',' ∉ l) → ll ≠ [] →
    splitCS (joinCS ll) = ll
  | [], _, hne => absurd rfl hne
  | [x], h, _ => by
    simpa [joinCS] using splitCS_no_comma (h x (by simp))
  | x :: y :: rest, h, _ => by
    have hx : ',' ∉ x := h x (by simp)
    have hrec := splitCS_joinCS (y :: rest) (fun l hl => h l (List.mem_cons_of_mem x hl)) (by simp)
    calc splitCS (joinCS (x :: y :: rest))
        = splitCS (x ++ ',' :: ' ' :: joinCS (y :: rest)) := by simp [joinCS]
      _ = x :: splitCS (joinCS (y :: rest)) := splitCS_append _ hx
      _ = x :: y :: rest := by rw [hrec]

lemma jsSplit_jsJoin (ss : List String) (h : ∀ s ∈ ss, ',' ∉ s.data) (hne : ss ≠ []) :
    jsSplit (jsJoin ss) = ss := by
  have hll : ∀ l ∈ ss.map String.data, ',' ∉ l := by
    intro l hl
    obtain ⟨s, hs, rfl⟩ := List.mem_map.1 hl
    exact h s hs
  have hne2 : ss.map String.data ≠ [] := by simpa using hne
  unfold jsSplit jsJoin
  rw [show (String.mk (joinCS (ss.map String.data))).data = joinCS (ss.map String.data) from rfl]
  rw [splitCS_joinCS _ hll hne2, List.map_map]
  exact List.map_id ss

lemma setKey_eq_append (m : List (String × Val)) (k : String) (v : Val)
    (h : k ∉ m.map Prod.fst) : setKey m k v = m ++ [(k, v)] := by
  induction m with
  | nil => simp [setKey]
  | cons kv rest ih =>
    obtain ⟨k1, v1⟩ := kv
    simp only [List.map_cons, List.mem_cons] at h
    push_neg at h
    simp [setKey, Ne.symm h.1, ih h.2]

/-- Whether a value is a nested object. -/
def isObjCell : Val → Bool
  | .obj _ => true
  | _ => false

lemma flattenObjectAux_flat : ∀ (r acc : List (String × Val)),
    (∀ kv ∈ r, isObjCell kv.2 = false) →
    (r.map Prod.fst).Nodup →
    (∀ kv ∈ r, kv.1 ∉ acc.map Prod.fst) →
    flattenObjectAux r "" acc = acc ++ r.map (fun kv => (kv.1, flatVal kv.2))
  | [], acc, _, _, _ => by simp [flattenObjectAux]
  | (k, v) :: rest, acc, hobj, hnodup, hfresh => by
    have hk : k ∉ acc.map Prod.fst := hfresh (k, v) (by simp)
    have hnodup2 : k ∉ rest.map Prod.fst ∧ (rest.map Prod.fst).Nodup := by
      have hx := hnodup
      simp only [List.map_cons] at hx
      exact List.nodup_cons.1 hx
    have hknr : k ∉ rest.map Prod.fst := hnodup2.1
    have hrest : flattenObjectAux rest "" (setKey acc k (flatVal v))
        = setKey acc k (flatVal v) ++ rest.map (fun kv => (kv.1, flatVal kv.2)) := by
      refine flattenObjectAux_flat rest (setKey acc k (flatVal v))
        (fun kv hm => hobj kv (List.mem_cons_of_mem _ hm))
        hnodup2.2 ?_
      intro kv hm
      rw [setKey_eq_append acc k (flatVal v) hk]
      simp only [List.map_append, List.mem_append, List.map_cons, List.map_nil]
      rintro (hin | hin)
      · exact hfresh kv (List.mem_cons_of_mem _ hm) hin
      · simp only [List.mem_singleton] at hin
        exact hknr (hin ▸ List.mem_map_of_mem Prod.fst hm)
    cases v with
    | obj g => exact absurd (hobj (k, .obj g) (by simp)) (by simp [isObjCell])
    | null =>
      rw [show flattenObjectAux ((k, Val.null) :: rest) "" acc
          = flattenObjectAux rest "" (setKey acc k (flatVal .null)) by
        simp [flattenObjectAux]]
      rw [hrest, setKey_eq_append acc k _ hk]
      simp
    | bool b =>
      rw [show flattenObjectAux ((k, Val.bool b) :: rest) "" acc
          = flattenObjectAux rest "" (setKey acc k (flatVal (.bool b))) by
        simp [flattenObjectAux]]
      rw [hrest, setKey_eq_append acc k _ hk]
      simp
    | str s =>
      rw [show flattenObjectAux ((k, Val.str s) :: rest) "" acc
          = flattenObjectAux rest "" (setKey acc k (flatVal (.str s))) by
        simp [flattenObjectAux]]
      rw [hrest, setKey_eq_append acc k _ hk]
      simp
    | num n =>
      rw [show flattenObjectAux ((k, Val.num n) :: rest) "" acc
          = flattenObjectAux rest "" (setKey acc k (flatVal (.num n))) by
        simp [flattenObjectAux]]
      rw [hrest, setKey_eq_append acc k _ hk]
      simp
    | arr xs =>
      rw [show flattenObjectAux ((k, Val.arr xs) :: rest) "" acc
          = flattenObjectAux rest "" (setKey acc k (flatVal (.arr xs))) by
        simp [flattenObjectAux]]
      rw [hrest, setKey_eq_append acc k _ hk]
      simp

lemma unflatten_foldl : ∀ (o acc : List (String × Val)),
    (o.map Prod.fst).Nodup →
    (∀ kv ∈ o, kv.1 ∉ acc.map Prod.fst) →
    o.foldl (fun result kv => setKey result kv.1 (unflatVal kv.1 kv.2)) acc
      = acc ++ o.map (fun kv => (kv.1, unflatVal kv.1 kv.2))
  | [], acc, _, _ => by simp
  | (k, v) :: rest, acc, hnodup, hfresh => by
    have hk : k ∉ acc.map Prod.fst := hfresh (k, v) (by simp)
    have hnodup2 : k ∉ rest.map Prod.fst ∧ (rest.map Prod.fst).Nodup := by
      have hx := hnodup
      simp only [List.map_cons] at hx
      exact List.nodup_cons.1 hx
    have hrec := unflatten_foldl rest (setKey acc k (unflatVal k v)) hnodup2.2 ?fresh
    case fresh =>
      intro kv hm
      rw [setKey_eq_append acc k _ hk]
      simp only [List.map_append, List.mem_append, List.map_cons, List.map_nil]
      rintro (hin | hin)
      · exact hfresh kv (List.mem_cons_of_mem _ hm) hin
      · simp only [List.mem_singleton] at hin
        exact hnodup2.1 (hin ▸ List.mem_map_of_mem Prod.fst hm)
    simp only [List.foldl_cons] at *
    rw [hrec, setKey_eq_append acc k _ hk]
    simp

/-- An array cell that survives the flatten/unflatten round trip: a
non-empty, comma-free, trim-invariant string. -/
def goodCell (v : Val) : Bool :=
  match v with
  | .str s => decide (',' ∉ s.data) && decide (jsTrim s = s) && decide (s ≠ "")
  | _ => false

/-- A registered array field value that survives the round trip: an array
of good cells. -/
def goodArrayVal : Val → Bool
  | .arr xs => xs.all goodCell
  | _ => false

def isStrCell : Val → Bool
  | .str _ => true
  | _ => false

/-- The record shape for which the flatten/unflatten round trip is exact:
distinct keys, registered array fields hold arrays of non-empty comma-free
trim-invariant strings, and every other field holds a scalar string. -/
def wellFormedRecord (r : List (String × Val)) : Prop :=
  (r.map Prod.fst).Nodup ∧
  ∀ kv ∈ r, (if arrayFields.contains kv.1 then goodArrayVal kv.2 else isStrCell kv.2) = true

lemma goodCell_elim {x : Val} (h : goodCell x = true) :
    ∃ s, x = Val.str s ∧ ',' ∉ s.data ∧ jsTrim s = s ∧ s ≠ "" := by
  cases x <;> simp [goodCell] at h
  case str s => exact ⟨s, rfl, h.1.1, h.1.2, h.2⟩

lemma jsJoin_cons_ne_empty (s0 : String) (rest : List String) (h : s0 ≠ "") :
    jsJoin (s0 :: rest) ≠ "" := by
  have hdata : s0.data ≠ [] := by
    intro hd
    apply h
    cases s0
    simp_all
  unfold jsJoin
  cases rest with
  | nil =>
    intro hcontra
    apply hdata
    have := congrArg String.data hcontra
    simpa [joinCS] using this
  | cons s1 rest1 =>
    intro hcontra
    have := congrArg String.data hcontra
    simp only [List.map_cons, joinCS] at this
    cases hd : s0.data with
    | nil => exact hdata hd
    | cons c cs => rw [hd] at this; simp at this

lemma unflatVal_flatVal_registered {k : String} {xs : List Val}
    (hk : arrayFields.contains k = true) (hgood : xs.all goodCell = true) :
    unflatVal k (flatVal (.arr xs)) = .arr xs := by
  have hgood2 : ∀ x ∈ xs, goodCell x = true := by
    intro x hx
    exact List.all_eq_true.1 hgood x hx
  have hk2 : k ∈ arrayFields := by simpa using hk
  cases xs with
  | nil => simp [flatVal, flattenArrayCell, unflatVal, hk2]
  | cons x0 xs1 =>
    have hprim : ((x0 :: xs1).all isPrimitiveCell) = true := by
      apply List.all_eq_true.2
      intro x hx
      obtain ⟨s, rfl, _⟩ := goodCell_elim (hgood2 x hx)
      rfl
    have hfv : flatVal (.arr (x0 :: xs1)) = .str (jsJoin ((x0 :: xs1).map jsToString)) := by
      simp [flatVal, flattenArrayCell, hprim]
    obtain ⟨s0, hx0, hc0, ht0, hn0⟩ := goodCell_elim (hgood2 x0 (by simp))
    have hjl : (x0 :: xs1).map jsToString = s0 :: xs1.map jsToString := by
      rw [hx0]; rfl
    have hne : jsJoin ((x0 :: xs1).map jsToString) ≠ "" := by
      rw [hjl]; exact jsJoin_cons_ne_empty s0 _ hn0
    have hcomma : ∀ s ∈ (x0 :: xs1).map jsToString, ',' ∉ s.data := by
      intro s hs
      obtain ⟨x, hx, rfl⟩ := List.mem_map.1 hs
      obtain ⟨t, rfl, hct, _, _⟩ := goodCell_elim (hgood2 x hx)
      simpa [jsToString] using hct
    have hsplit : jsSplit (jsJoin ((x0 :: xs1).map jsToString)) = (x0 :: xs1).map jsToString :=
      jsSplit_jsJoin _ hcomma (by simp)
    have htrim : ((x0 :: xs1).map jsToString).map jsTrim = (x0 :: xs1).map jsToString := by
      apply List.map_congr_left ?_ |>.trans (List.map_id _)
      intro s hs
      obtain ⟨x, hx, rfl⟩ := List.mem_map.1 hs
      obtain ⟨t, rfl, _, htt, _⟩ := goodCell_elim (hgood2 x hx)
      simpa [jsToString] using htt
    have hfil : ((x0 :: xs1).map jsToString).filter (fun t => t != "")
        = (x0 :: xs1).map jsToString := by
      apply List.filter_eq_self.2
      intro s hs
      obtain ⟨x, hx, rfl⟩ := List.mem_map.1 hs
      obtain ⟨t, rfl, _, _, htn⟩ := goodCell_elim (hgood2 x hx)
      simpa [jsToString] using htn
    have hback : ((x0 :: xs1).map jsToString).map Val.str = x0 :: xs1 := by
      rw [List.map_map]
      apply List.map_congr_left ?_ |>.trans (List.map_id _)
      intro x hx
      obtain ⟨t, rfl, _, _, _⟩ := goodCell_elim (hgood2 x hx)
      rfl
    rw [hfv]
    generalize hgen : List.map jsToString (x0 :: xs1) = ls at hsplit htrim hfil hback hne
    have hstep : unflatVal k (.str (jsJoin ls))
        = .arr ((((jsSplit (jsJoin ls)).map jsTrim).filter (fun t => t != "")).map Val.str) := by
      simp [unflatVal, hk2, hne]
    rw [hstep, hsplit, htrim, hfil, hback]

/-- C1 counterexample: the round trip is not exact for every record whose
registered array fields hold comma-free scalar strings: a string with
leading whitespace is comma-free, yet unflattenObject trims it, so the
reconstructed record differs from the original. -/
theorem C1_counterexample :
    unflattenObject (flattenObject [("inputs", Val.arr [Val.str " a"])] "")
      ≠ [("inputs", Val.arr [Val.str " a"])] := by
  simp only [flattenObject, flattenObjectAux, setKey, flatVal]
  decide

/-- C1 (amended): unflattenObject (flattenObject r) = r for every record r
with distinct keys, no nested records, whose registered array fields hold
sequences of comma-free scalar strings that are additionally non-empty and
trim-invariant, and whose other fields hold scalar strings. -/
theorem C1_roundtrip_amended (r : List (String × Val)) (h : wellFormedRecord r) :
    unflattenObject (flattenObject r "") = r := by
  obtain ⟨hnodup, hvals⟩ := h
  have hobj : ∀ kv ∈ r, isObjCell kv.2 = false := by
    intro kv hm
    obtain ⟨k, v⟩ := kv
    have hv := hvals (k, v) hm
    by_cases hc : arrayFields.contains k
    · rw [if_pos hc] at hv
      cases v <;> simp_all [goodArrayVal, isObjCell]
    · rw [if_neg hc] at hv
      cases v <;> simp_all [isStrCell, isObjCell]
  rw [flattenObject, flattenObjectAux_flat r [] hobj hnodup (by simp)]
  simp only [List.nil_append]
  unfold unflattenObject
  rw [unflatten_foldl _ [] ?nd ?fr]
  case nd =>
    rw [List.map_map]
    exact hnodup
  case fr => simp
  simp only [List.nil_append, List.map_map]
  apply (List.map_congr_left ?_).trans (List.map_id r)
  intro kv hm
  have hv := hvals kv hm
  show (kv.1, unflatVal kv.1 (flatVal kv.2)) = kv
  by_cases hc : arrayFields.contains kv.1
  · rw [if_pos hc] at hv
    cases h2 : kv.2 with
    | arr xs =>
      rw [h2] at hv
      have := unflatVal_flatVal_registered hc (by simpa [goodArrayVal] using hv)
      rw [this, ← h2]
    | null => rw [h2] at hv; simp [goodArrayVal] at hv
    | bool b => rw [h2] at hv; simp [goodArrayVal] at hv
    | str s => rw [h2] at hv; simp [goodArrayVal] at hv
    | num n => rw [h2] at hv; simp [goodArrayVal] at hv
    | obj g => rw [h2] at hv; simp [goodArrayVal] at hv
  · rw [if_neg hc] at hv
    cases h2 : kv.2 with
    | str s =>
      have hfl : flatVal (Val.str s) = Val.str s := rfl
      rw [hfl, unflatVal, if_neg hc, ← h2]
    | null => rw [h2] at hv; simp [isStrCell] at hv
    | bool b => rw [h2] at hv; simp [isStrCell] at hv
    | arr xs => rw [h2] at hv; simp [isStrCell] at hv
    | num n => rw [h2] at hv; simp [isStrCell] at hv
    | obj g => rw [h2] at hv; simp [isStrCell] at hv

/-- Witness for C1: the amended round trip holds on a concrete record with
a registered array field and an ordinary scalar field. -/
theorem C1_roundtrip_amended_witness :
    wellFormedRecord [("inputs", Val.arr [Val.str "a", Val.str "b"]), ("task", Val.str "Blurring")] ∧
    unflattenObject (flattenObject
        [("inputs", Val.arr [Val.str "a", Val.str "b"]), ("task", Val.str "Blurring")] "")
      = [("inputs", Val.arr [Val.str "a", Val.str "b"]), ("task", Val.str "Blurring")] :=
  ⟨by constructor <;> decide, C1_roundtrip_amended _ (by constructor <;> decide)⟩

lemma mem_setKey : ∀ {m : List (String × Val)} {k : String} {v : Val} {kv : String × Val},
    kv ∈ setKey m k v → kv = (k, v) ∨ kv ∈ m := by
  intro m
  induction m with
  | nil => intro k v kv h; exact Or.inl (by simpa [setKey] using h)
  | cons kv1 rest ih =>
    intro k v kv h
    obtain ⟨k1, v1⟩ := kv1
    by_cases hk : k1 = k
    · rw [setKey, if_pos hk] at h
      rcases List.mem_cons.1 h with h1 | h1
      · exact Or.inl h1
      · exact Or.inr (List.mem_cons_of_mem _ h1)
    · rw [setKey, if_neg hk] at h
      rcases List.mem_cons.1 h with h1 | h1
      · exact Or.inr (h1 ▸ List.mem_cons_self _ _)
      · rcases ih h1 with h2 | h2
        · exact Or.inl h2
        · exact Or.inr (List.mem_cons_of_mem _ h2)

lemma mem_of_lookup_eq_some {α : Type} [DecidableEq α] {β : Type} :
    ∀ {m : List (α × β)} {k : α} {v : β}, m.lookup k = some v → (k, v) ∈ m := by
  intro m
  induction m with
  | nil => intro k v h; simp [List.lookup] at h
  | cons kv rest ih =>
    intro k v h
    obtain ⟨k1, v1⟩ := kv
    rw [List.lookup_cons] at h
    cases hbeq : (k == k1)
    case true =>
      rw [hbeq] at h
      have hv : some v1 = some v := h
      have hk : k = k1 := by simpa using hbeq
      simp only [Option.some.injEq] at hv
      rw [hk, ← hv]
      exact List.mem_cons_self _ _
    case false =>
      rw [hbeq] at h
      exact List.mem_cons_of_mem _ (ih h)

lemma unflatten_registered_inv : ∀ (o acc : List (String × Val)),
    (∀ kv ∈ o, isStrCell kv.2 = true) →
    (∀ kv ∈ acc, kv.1 ∈ arrayFields → ∃ xs, kv.2 = Val.arr xs) →
    ∀ kv ∈ o.foldl (fun result kv => setKey result kv.1 (unflatVal kv.1 kv.2)) acc,
      kv.1 ∈ arrayFields → ∃ xs, kv.2 = Val.arr xs
  | [], acc, _, hacc => by simpa using hacc
  | (k, v) :: rest, acc, hstr, hacc => by
    simp only [List.foldl_cons]
    apply unflatten_registered_inv rest _ (fun kv hm => hstr kv (List.mem_cons_of_mem _ hm))
    intro kv hm hreg
    rcases mem_setKey hm with h1 | h1
    · obtain ⟨s, hs⟩ : ∃ s, v = Val.str s := by
        have := hstr (k, v) (by simp)
        cases v <;> simp_all [isStrCell]
      subst hs
      rw [h1] at hreg ⊢
      have hreg2 : k ∈ arrayFields := hreg
      by_cases hse : s = ""
      · exact ⟨[], by simp [unflatVal, hse, hreg2]⟩
      · exact ⟨(((jsSplit s).map jsTrim).filter (fun t => t != "")).map Val.str,
          by simp [unflatVal, hse, hreg2]⟩
    · exact hacc kv h1 hreg

/-- C4: un-flattening a registered array field of a flat row (a row whose
values are all scalar strings) always yields an array, never a scalar. -/
theorem C4_registered_never_scalar (o : List (String × Val))
    (hflat : ∀ kv ∈ o, isStrCell kv.2 = true) :
    ∀ k v, k ∈ arrayFields → (unflattenObject o).lookup k = some v → ∃ xs, v = Val.arr xs := by
  intro k v hreg hlook
  have hmem : (k, v) ∈ unflattenObject o := mem_of_lookup_eq_some hlook
  have := unflatten_registered_inv o [] hflat (by simp) (k, v) (by simpa [unflattenObject] using hmem) hreg
  simpa using this

/-- Witness for C4: a concrete flat row whose registered field decodes to
an array. -/
theorem C4_registered_never_scalar_witness :
    ∃ xs, Val.arr [Val.str "a", Val.str "b"] = Val.arr xs :=
  C4_registered_never_scalar [("inputs", Val.str "a, b"), ("task", Val.str "T")]
    (by decide) "inputs" (Val.arr [Val.str "a", Val.str "b"]) (by decide) (by decide)

/-- A validation error as produced by validateData: 1-indexed display row
(data row index + 2, accounting for the header row), the field name, the
offending trimmed value, and the full option list. -/
structure ValidationError where
  row : Nat
  field : String
  value : String
  validOptions : List String
deriving DecidableEq

/-- The fixed list of simple validated fields, in declared order. -/
def fieldsToValidate : List String :=
  ["inputs", "outputs", "enhancement", "enhancement-order", "responsibility_options", "task", "taskProduct"]

/-- The fieldKey computed by validateData: every hyphen in the field name
replaced by an underscore (the alias used when looking up learned options). -/
def hyphenToUnderscore (s : String) : String :=
  String.mk (s.data.map (fun c => if c = '-' then '_' else c))

/-- fieldOptions[field] || fieldOptions[fieldKey]: try the literal field
name first, then the hyphen-to-underscore alias. -/
def lookupOptions (fieldOptions : List (String × List String)) (field : String) :
    Option (List String) :=
  match fieldOptions.lookup field with
  | some opts => some opts
  | none => fieldOptions.lookup (hyphenToUnderscore field)

/-- row[k] on an any-typed row: a property of an object, undefined
otherwise (undefined is modelled as none). -/
def objLookup (row : Val) (k : String) : Option Val :=
  match row with
  | .obj fs => fs.lookup k
  | _ => none

/-- Array.isArray(v) ? v : [v]. -/
def asArray (v : Val) : List Val :=
  match v with
  | .arr xs => xs
  | v => [v]

/-- One element check inside validateData: trim the stringified value and
report an error when it is non-empty and not among the allowed options. -/
def validateCell (rowNum : Nat) (field : String) (opts : List String) (x : Val) :
    Option ValidationError :=
  if jsTrim (jsToString x) ≠ "" ∧ jsTrim (jsToString x) ∉ opts then
    some ⟨rowNum, field, jsTrim (jsToString x), opts⟩
  else none

/-- The errors validateData emits for one field of one row: skip absent,
null and empty-string values, skip fields with no (or an empty) learned
option list, otherwise check every element. -/
def rowFieldErrors (rowIndex : Nat) (row : Val) (fieldOptions : List (String × List String))
    (field : String) : List ValidationError :=
  match objLookup row field with
  | none => []
  | some v =>
    if v = Val.null ∨ v = Val.str "" then []
    else
      match lookupOptions fieldOptions field with
      | none => []
      | some allowedOptions =>
        if allowedOptions = [] then []
        else (asArray v).filterMap (validateCell (rowIndex + 2) field allowedOptions)

/-- All errors for one row, fields in the declared order. -/
def validateRowErrors (rowIndex : Nat) (row : Val)
    (fieldOptions : List (String × List String)) : List ValidationError :=
  fieldsToValidate.flatMap (rowFieldErrors rowIndex row fieldOptions)

def validateDataAux : Nat → List Val → List (String × List String) → List ValidationError
  | _, [], _ => []
  | i, row :: rest, fieldOptions =>
    validateRowErrors i row fieldOptions ++ validateDataAux (i + 1) rest fieldOptions

/-- validateData from src: rows in order, the fixed field list per row. -/
def validateData (rows : List Val) (fieldOptions : List (String × List String)) :
    List ValidationError :=
  validateDataAux 0 rows fieldOptions

lemma validateCell_eq_some {rowNum : Nat} {f : String} {opts : List String} {x : Val}
    {e : ValidationError} :
    validateCell rowNum f opts x = some e ↔
      jsTrim (jsToString x) ≠ "" ∧ jsTrim (jsToString x) ∉ opts ∧
        e = ⟨rowNum, f, jsTrim (jsToString x), opts⟩ := by
  unfold validateCell
  split_ifs with h
  · simp only [Option.some.injEq]
    constructor
    · intro he; exact ⟨h.1, h.2, he.symm⟩
    · intro he; exact he.2.2.symm
  · constructor
    · intro hc; simp at hc
    · intro hc; exact absurd ⟨hc.1, hc.2.1⟩ h

lemma mem_rowFieldErrors {e : ValidationError} {i : Nat} {row : Val}
    {fo : List (String × List String)} {f : String} :
    e ∈ rowFieldErrors i row fo f ↔
      ∃ v, objLookup row f = some v ∧ ¬(v = Val.null ∨ v = Val.str "") ∧
        ∃ opts, lookupOptions fo f = some opts ∧ opts ≠ [] ∧
          ∃ x ∈ asArray v, validateCell (i + 2) f opts x = some e := by
  unfold rowFieldErrors
  cases h1 : objLookup row f with
  | none => simp
  | some v =>
    simp only [Option.some.injEq]
    by_cases h2 : v = Val.null ∨ v = Val.str ""
    · rw [if_pos h2]
      simp only [List.not_mem_nil, false_iff]
      rintro ⟨v2, rfl, hv2, _⟩
      exact hv2 h2
    · rw [if_neg h2]
      cases h3 : lookupOptions fo f with
      | none =>
        simp only [List.not_mem_nil, false_iff]
        rintro ⟨v2, rfl, _, opts, hopts, _⟩
        simp at hopts
      | some opts =>
        show e ∈ (if opts = [] then []
            else (asArray v).filterMap (validateCell (i + 2) f opts)) ↔ _
        by_cases h4 : opts = []
        · rw [if_pos h4]
          simp only [List.not_mem_nil, false_iff]
          rintro ⟨v2, rfl, _, opts2, hopts2, hne, _⟩
          rw [Option.some.injEq] at hopts2
          exact hne (hopts2 ▸ h4)
        · rw [if_neg h4]
          rw [List.mem_filterMap]
          constructor
          · rintro ⟨x, hx, hcell⟩
            exact ⟨v, rfl, h2, opts, rfl, h4, x, hx, hcell⟩
          · rintro ⟨v2, hv2, _, opts2, hopts2, _, x, hx, hcell⟩
            rw [Option.some.injEq] at hopts2
            cases hv2
            cases hopts2
            exact ⟨x, hx, hcell⟩

lemma mem_validateRowErrors {e : ValidationError} {i : Nat} {row : Val}
    {fo : List (String × List String)} :
    e ∈ validateRowErrors i row fo ↔ ∃ f ∈ fieldsToValidate, e ∈ rowFieldErrors i row fo f := by
  unfold validateRowErrors
  exact List.mem_flatMap

lemma mem_validateDataAux : ∀ {n : Nat} {rows : List Val}
    {fo : List (String × List String)} {e : ValidationError},
    e ∈ validateDataAux n rows fo ↔
      ∃ j row, rows.get? j = some row ∧ e ∈ validateRowErrors (n + j) row fo := by
  intro n rows
  induction rows generalizing n with
  | nil => intro fo e; simp [validateDataAux]
  | cons row rest ih =>
    intro fo e
    rw [validateDataAux, List.mem_append]
    constructor
    · rintro (h | h)
      · exact ⟨0, row, by simp, by simpa using h⟩
      · obtain ⟨j, row2, hget, hmem⟩ := ih.1 h
        exact ⟨j + 1, row2, by simpa using hget, by
          have : n + 1 + j = n + (j + 1) := by omega
          rwa [this] at hmem⟩
    · rintro ⟨j, row2, hget, hmem⟩
      cases j with
      | zero =>
        left
        simp only [List.get?_cons_zero, Option.some.injEq] at hget
        subst hget
        simpa using hmem
      | succ j2 =>
        right
        apply ih.2
        refine ⟨j2, row2, by simpa using hget, ?_⟩
        have : n + (j2 + 1) = n + 1 + j2 := by omega
        rwa [this] at hmem

lemma mem_validateData_iff {rows : List Val} {fo : List (String × List String)}
    {e : ValidationError} :
    e ∈ validateData rows fo ↔
      ∃ j row, rows.get? j = some row ∧ ∃ f ∈ fieldsToValidate,
        ∃ v, objLookup row f = some v ∧ ¬(v = Val.null ∨ v = Val.str "") ∧
          ∃ opts, lookupOptions fo f = some opts ∧ opts ≠ [] ∧
            ∃ x ∈ asArray v, validateCell (j + 2) f opts x = some e := by
  unfold validateData
  rw [mem_validateDataAux]
  constructor
  · rintro ⟨j, row, hget, hmem⟩
    rw [Nat.zero_add] at hmem
    obtain ⟨f, hf, hrf⟩ := mem_validateRowErrors.1 hmem
    obtain ⟨v, hv, hnn, opts, hopts, hne, x, hx, hcell⟩ := mem_rowFieldErrors.1 hrf
    exact ⟨j, row, hget, f, hf, v, hv, hnn, opts, hopts, hne, x, hx, hcell⟩
  · rintro ⟨j, row, hget, f, hf, v, hv, hnn, opts, hopts, hne, x, hx, hcell⟩
    refine ⟨j, row, hget, ?_⟩
    rw [Nat.zero_add]
    exact mem_validateRowErrors.2 ⟨f, hf, mem_rowFieldErrors.2 ⟨v, hv, hnn, opts, hopts, hne, x, hx, hcell⟩⟩

/-- C5 counterexample: a whitespace-only element trims to the empty string,
which is not in the learned option set, yet validateData emits no error for
it, contradicting the claim that every trimmed element not verbatim in the
option set produces a ValidationError. -/
theorem C5_counterexample :
    validateData [Val.obj [("task", Val.str "  ")]] [("task", ["A"])] = [] ∧
    jsTrim (jsToString (Val.str "  ")) ∉ (["A"] : List String) := by
  constructor <;> decide

/-- C5 (amended): for every field of the fixed simple-field list with a
non-empty option set learned under its literal name or hyphen-to-underscore
alias, an element of a (present, non-null, non-empty-string) row value whose
trimmed form is non-empty produces the ValidationError carrying the full
option list exactly when that trimmed form is not verbatim in the set; a
field with no learned option set never produces an error. -/
theorem C5_simple_validation_amended
    (rows : List Val) (fo : List (String × List String)) (f : String)
    (hf : f ∈ fieldsToValidate) :
    (∀ i row v opts x,
        rows.get? i = some row →
        objLookup row f = some v →
        v ≠ Val.null → v ≠ Val.str "" →
        lookupOptions fo f = some opts → opts ≠ [] →
        x ∈ asArray v → jsTrim (jsToString x) ≠ "" →
        ((⟨i + 2, f, jsTrim (jsToString x), opts⟩ : ValidationError) ∈ validateData rows fo ↔
          jsTrim (jsToString x) ∉ opts)) ∧
    (lookupOptions fo f = none → ∀ e ∈ validateData rows fo, e.field ≠ f) := by
  constructor
  · intro i row v opts x hget hv hn1 hn2 hopts hne hx ht
    constructor
    · intro hmem
      obtain ⟨j, row2, hget2, f2, hf2, v2, hv2, hnn2, opts2, hopts2, hne2, x2, hx2, hcell2⟩ :=
        mem_validateData_iff.1 hmem
      obtain ⟨htrim2, hnotin2, heq2⟩ := validateCell_eq_some.1 hcell2
      rw [ValidationError.mk.injEq] at heq2
      rw [heq2.2.2.1, heq2.2.2.2]
      exact hnotin2
    · intro hnotin
      apply mem_validateData_iff.2
      exact ⟨i, row, hget, f, hf, v, hv, (by tauto), opts, hopts, hne, x, hx,
        validateCell_eq_some.2 ⟨ht, hnotin, rfl⟩⟩
  · intro hnone e hmem hfield
    obtain ⟨j, row2, hget2, f2, hf2, v2, hv2, hnn2, opts2, hopts2, hne2, x2, hx2, hcell2⟩ :=
      mem_validateData_iff.1 hmem
    obtain ⟨htrim2, hnotin2, heq2⟩ := validateCell_eq_some.1 hcell2
    have hfeq : f2 = f := by rw [heq2] at hfield; exact hfield
    rw [hfeq] at hopts2
    rw [hnone] at hopts2
    exact Option.noConfusion hopts2

/-- Witness for C5: a misspelled task value produces exactly the error the
amended claim predicts. -/
theorem C5_simple_validation_amended_witness :
    (⟨2, "task", "Blurign", ["Blurring"]⟩ : ValidationError)
      ∈ validateData [Val.obj [("task", Val.str "Blurign")]] [("task", ["Blurring"])] :=
  ((C5_simple_validation_amended [Val.obj [("task", Val.str "Blurign")]]
      [("task", ["Blurring"])] "task" (by decide)).1 0 (Val.obj [("task", Val.str "Blurign")])
      (Val.str "Blurign") ["Blurring"] (Val.str "Blurign") (by decide) (by decide) (by decide)
      (by decide) (by decide) (by decide) (by decide) (by decide)).mpr (by decide)

/-- C3 counterexample: with the taskProduct set containing the value X, a
row whose inputs field holds X is still rejected, because validateData
looks the option set up under the literal name inputs (which holds Y), not
under taskProduct. -/
theorem C3_counterexample :
    validateData [Val.obj [("inputs", Val.arr [Val.str "X"])]]
        [("taskProduct", ["X"]), ("inputs", ["Y"])]
      = [⟨2, "inputs", "X", ["Y"]⟩] ∧
    "X" ∈ (["X"] : List String) := by
  constructor <;> decide

/-- C3 (amended): during simple-field validation the elements of inputs and
outputs are checked against the option set stored under the field's own
literal name (or its hyphen-to-underscore alias), not against the
taskProduct option set: every error reported for these fields carries
exactly the option list found under the literal name, and its value fails
membership in that list. -/
theorem C3_literal_name_lookup_amended :
    ∀ f ∈ (["inputs", "outputs"] : List String),
      ∀ (rows : List Val) (fo : List (String × List String)) (e : ValidationError),
        e ∈ validateData rows fo → e.field = f →
        lookupOptions fo f = some e.validOptions ∧ e.value ∉ e.validOptions := by
  intro f hf rows fo e hmem hfield
  obtain ⟨j, row, hget, f2, hf2, v, hv, hnn, opts, hopts, hne, x, hx, hcell⟩ :=
    mem_validateData_iff.1 hmem
  obtain ⟨htrim, hnotin, heq⟩ := validateCell_eq_some.1 hcell
  subst heq
  have hfeq : f2 = f := hfield
  exact ⟨hfeq ▸ hopts, hnotin⟩

/-- Witness for C3: the error from the counterexample row indeed carries
the option list stored under the literal name inputs. -/
theorem C3_literal_name_lookup_amended_witness :
    lookupOptions [("taskProduct", ["X"]), ("inputs", ["Y"])] "inputs"
        = some (["Y"] : List String) ∧ "X" ∉ (["Y"] : List String) :=
  C3_literal_name_lookup_amended "inputs" (by decide)
    [Val.obj [("inputs", Val.arr [Val.str "X"])]]
    [("taskProduct", ["X"]), ("inputs", ["Y"])]
    ⟨2, "inputs", "X", ["Y"]⟩ (by decide) (by decide)

/-- Outcome of reading one JSON document from disk: the file is absent,
present but unparseable, or parses to a field-options document. -/
inductive FileRead where
  | missing
  | corrupt
  | content (doc : List (String × List String))

/-- The fallback half of loadFieldOptions: read extras/field_options.json,
returning the empty mapping (with a console warning) when it is missing or
unparseable. -/
def loadFallbackFieldOptions : FileRead → List (String × List String)
  | .content doc => doc
  | _ => []

/-- loadFieldOptions from src: prefer available_options.json when it exists
and parses; an unparseable available_options.json falls through to the
static field_options.json, exactly like a missing one. -/
def loadFieldOptions (availableOptionsFile fieldOptionsFile : FileRead) :
    List (String × List String) :=
  match availableOptionsFile with
  | .content doc => doc
  | .missing => loadFallbackFieldOptions fieldOptionsFile
  | .corrupt => loadFallbackFieldOptions fieldOptionsFile

/-- C7 counterexample: with a corrupt available_options.json and a readable
static field_options.json, loadFieldOptions returns the static document,
not the empty mapping. -/
theorem C7_counterexample :
    loadFieldOptions .corrupt (.content [("task", ["A"])]) = [("task", ["A"])] ∧
    loadFieldOptions .corrupt (.content [("task", ["A"])]) ≠ [] := by
  constructor <;> decide

/-- C7 (amended): an unparseable available_options.json is handled exactly
like a missing one (no exception surfaces, the loader falls back to the
static field_options.json), and the empty mapping is returned only when
the fallback is itself missing or unparseable. -/
theorem C7_corrupt_treated_as_missing_amended :
    (∀ fallback, loadFieldOptions .corrupt fallback = loadFieldOptions .missing fallback) ∧
    loadFieldOptions .corrupt .missing = [] ∧ loadFieldOptions .corrupt .corrupt = [] :=
  ⟨fun _ => rfl, rfl, rfl⟩

/-- JS String.prototype.toLowerCase, modelled on the ASCII range the data
uses. -/
def jsToLower (s : String) : String :=
  String.mk (s.data.map Char.toLower)

/-- One cell row of the Levenshtein matrix loop: given the character x of
str1 for this row, the remaining characters of str2, the suffix of the
previous matrix row starting at column j-1, and the value just computed at
column j-1 of the current row, produce the current row from column j on.
The cell recurrence is the one in the source: keep the diagonal on equal
characters, else 1 + min of substitution, insertion and deletion. -/
def levRowStep (x : Char) : List Char → List Nat → Nat → List Nat
  | [], _, _ => []
  | y :: ys, p0 :: p1 :: ps, left =>
    let cell := if x = y then p0 else min (p0 + 1) (min (left + 1) (p1 + 1))
    cell :: levRowStep x ys (p1 :: ps) cell
  | _ :: _, _, _ => []

/-- Row i of the Levenshtein matrix (column 0 holds i). -/
def levRow (x : Char) (str2 : List Char) (prevRow : List Nat) (i : Nat) : List Nat :=
  i :: levRowStep x str2 prevRow i

/-- The outer loop over the characters of str1, carrying the previous
matrix row. -/
def levRows : List Char → List Char → List Nat → Nat → List Nat
  | [], _, prevRow, _ => prevRow
  | x :: xs, str2, prevRow, i => levRows xs str2 (levRow x str2 prevRow (i + 1)) (i + 1)

/-- levenshteinDistance from src: dynamic-programming matrix over the two
strings, returning matrix[len1][len2]. -/
def levenshteinDistance (str1 str2 : String) : Nat :=
  (levRows str1.data str2.data (List.range (str2.data.length + 1)) 0).getD str2.data.length 0

example : levenshteinDistance "Blurign" "Blurring" = 3 := by decide
example : levenshteinDistance "kitten" "sitting" = 3 := by decide
example : levenshteinDistance "abc" "" = 3 := by decide
example : levenshteinDistance "" "ab" = 2 := by decide

/-- The order used to model the stable JS sort by distance inside
findClosestMatches: each option is paired with its original position, and
records are compared by distance with ties broken by position (a stable
sort by distance computes exactly the sort by this total order). -/
def distLe (a b : Nat × String × Nat) : Prop :=
  a.2.2 < b.2.2 ∨ (a.2.2 = b.2.2 ∧ a.1 ≤ b.1)

instance : DecidableRel distLe := fun a b =>
  decidable_of_iff (a.2.2 < b.2.2 ∨ (a.2.2 = b.2.2 ∧ a.1 ≤ b.1)) Iff.rfl

instance : IsTotal (Nat × String × Nat) distLe :=
  ⟨by intro a b; unfold distLe; omega⟩

instance : IsTrans (Nat × String × Nat) distLe :=
  ⟨by intro a b c; unfold distLe; omega⟩

/-- findClosestMatches from src: lowercase both sides, compute the
distance of every option, sort ascending by distance (stably: original
order breaks ties), keep the options at distance at most 3, and return at
most maxSuggestions of them (the callers pass 3, the declared default). -/
def findClosestMatches (value : String) (options : List String) (maxSuggestions : Nat) :
    List String :=
  let valueLower := jsToLower value
  let distances := options.enum.map (fun p => (p.1, p.2, levenshteinDistance valueLower (jsToLower p.2)))
  let sorted := List.insertionSort distLe distances
  ((sorted.filter (fun t => decide (t.2.2 ≤ 3))).take maxSuggestions).map (fun t => t.2.1)

example : findClosestMatches "Blurign" ["Staging", "Blurring"] 3 = ["Blurring"] := by
  decide

/-- Filtering an enumerated list on a property of the element alone keeps
as many entries as filtering the bare list. -/
theorem length_filter_enumFrom {α : Type} (q : α → Bool) (n : Nat) (l : List α) :
    ((List.enumFrom n l).filter (fun p => q p.2)).length = (l.filter q).length := by
  induction l generalizing n with
  | nil => rfl
  | cons a l ih => cases hq : q a <;> simp [List.enumFrom, List.filter_cons, hq, ih]

/-- The element at position i of a list appears in its enumeration from n
with index n + i. -/
theorem mem_enumFrom_of_getq {α : Type} :
    ∀ (l : List α) (n i : Nat) (a : α), l.get? i = some a → (n + i, a) ∈ l.enumFrom n := by
  intro l
  induction l with
  | nil => intro n i a h; simp [List.get?] at h
  | cons x xs ih =>
    intro n i a h
    cases i with
    | zero =>
      have hx : x = a := by simpa [List.get?] using h
      simp [List.enumFrom, hx]
    | succ j =>
      have h2 : xs.get? j = some a := h
      have h3 := ih (n + 1) j a h2
      have heq : n + (j + 1) = n + 1 + j := by omega
      rw [heq]
      exact List.mem_cons_of_mem _ h3

/-- The element at position i of a list appears in its enumeration paired
with i. -/
theorem mem_enum_of_getq {α : Type} (l : List α) (i : Nat) (a : α)
    (h : l.get? i = some a) : (i, a) ∈ l.enum := by
  have := mem_enumFrom_of_getq l 0 i a h
  simpa using this

/-- C8: findClosestMatches returns exactly min(k, number of options whose
case-insensitive Levenshtein distance to the value is at most 3) candidates;
every returned candidate comes from the option list and has distance at most
3; the returned list is an index-annotated sublist of the options sorted
ascending by distance with ties broken by original position (the effect of
the stable JS sort), and it is top-k complete: every qualifying option is
itself returned unless the result is already full with k entries that all
precede it strictly in the distance-then-position order; and when no
candidate is within the threshold the result is the empty list, not an
error. -/
theorem C8_findClosestMatches_spec (value : String) (options : List String) (k : Nat) :
    (findClosestMatches value options k).length
      = min k ((options.filter
          (fun o => decide (levenshteinDistance (jsToLower value) (jsToLower o) ≤ 3))).length) ∧
    (∀ s ∈ findClosestMatches value options k,
        s ∈ options ∧ levenshteinDistance (jsToLower value) (jsToLower s) ≤ 3) ∧
    (∃ ts : List (Nat × String × Nat),
        findClosestMatches value options k = ts.map (fun t => t.2.1) ∧
        (∀ t ∈ ts, options.get? t.1 = some t.2.1 ∧
            t.2.2 = levenshteinDistance (jsToLower value) (jsToLower t.2.1) ∧ t.2.2 ≤ 3) ∧
        ts.Pairwise (fun a b => a.2.2 < b.2.2 ∨ (a.2.2 = b.2.2 ∧ a.1 < b.1)) ∧
        (∀ i o, options.get? i = some o →
            levenshteinDistance (jsToLower value) (jsToLower o) ≤ 3 →
            (i, o, levenshteinDistance (jsToLower value) (jsToLower o)) ∈ ts ∨
            (ts.length = k ∧ ∀ t ∈ ts,
                t.2.2 < levenshteinDistance (jsToLower value) (jsToLower o) ∨
                (t.2.2 = levenshteinDistance (jsToLower value) (jsToLower o) ∧ t.1 < i)))) ∧
    ((∀ o ∈ options, ¬ levenshteinDistance (jsToLower value) (jsToLower o) ≤ 3) →
        findClosestMatches value options k = []) := by
  have hdef : findClosestMatches value options k
      = (((List.insertionSort distLe
            (options.enum.map (fun p =>
              (p.1, p.2, levenshteinDistance (jsToLower value) (jsToLower p.2))))).filter
            (fun t => decide (t.2.2 ≤ 3))).take k).map (fun t => t.2.1) := rfl
  set distances := options.enum.map (fun p =>
    (p.1, p.2, levenshteinDistance (jsToLower value) (jsToLower p.2))) with hdistances
  set sorted := List.insertionSort distLe distances with hsorted
  set ts := (sorted.filter (fun t => decide (t.2.2 ≤ 3))).take k with hts
  have hperm : sorted.Perm distances := List.perm_insertionSort distLe distances
  have hsub : ts.Sublist sorted :=
    (List.take_sublist k _).trans (List.filter_sublist sorted)
  have hshape : ∀ t ∈ distances, options.get? t.1 = some t.2.1 ∧
      t.2.2 = levenshteinDistance (jsToLower value) (jsToLower t.2.1) := by
    intro t ht
    rw [hdistances] at ht
    obtain ⟨p, hp, rfl⟩ := List.mem_map.1 ht
    obtain ⟨i, o⟩ := p
    obtain ⟨hlt, heq⟩ := List.mem_enum hp
    refine ⟨?_, rfl⟩
    rw [List.get?_eq_getElem?, List.getElem?_eq_getElem hlt, heq]
  have hflsub : (sorted.filter (fun t => decide (t.2.2 ≤ 3))).Sublist sorted :=
    List.filter_sublist sorted
  have hts_facts : ∀ t ∈ ts, options.get? t.1 = some t.2.1 ∧
      t.2.2 = levenshteinDistance (jsToLower value) (jsToLower t.2.1) ∧ t.2.2 ≤ 3 := by
    intro t ht
    have htd : t ∈ distances := hperm.mem_iff.1 (hsub.subset ht)
    have hfil : t ∈ sorted.filter (fun t => decide (t.2.2 ≤ 3)) := by
      rw [hts] at ht
      exact List.take_subset k _ ht
    have hle : t.2.2 ≤ 3 := of_decide_eq_true (List.mem_filter.1 hfil).2
    exact ⟨(hshape t htd).1, (hshape t htd).2, hle⟩
  have hnodup_d : (distances.map Prod.fst).Nodup := by
    rw [hdistances, List.map_map]
    have : (Prod.fst ∘ fun p : Nat × String =>
        (p.1, p.2, levenshteinDistance (jsToLower value) (jsToLower p.2))) = Prod.fst := rfl
    rw [this, List.enum_map_fst]
    exact List.nodup_range _
  have hnodup_s : (sorted.map Prod.fst).Nodup :=
    ((hperm.map Prod.fst).nodup_iff).2 hnodup_d
  have hnodup_fl : ((sorted.filter (fun t => decide (t.2.2 ≤ 3))).map Prod.fst).Nodup :=
    List.Nodup.sublist (hflsub.map Prod.fst) hnodup_s
  have hpair_fl : List.Pairwise distLe (sorted.filter (fun t => decide (t.2.2 ≤ 3))) :=
    List.Pairwise.sublist hflsub (List.sorted_insertionSort distLe distances)
  refine ⟨?_, ?_, ?_, ?_⟩
  · rw [hdef, List.length_map, hts, List.length_take]
    have hfl_len : (sorted.filter (fun t => decide (t.2.2 ≤ 3))).length
        = (options.filter
            (fun o => decide (levenshteinDistance (jsToLower value) (jsToLower o) ≤ 3))).length := by
      have h1 : (sorted.filter (fun t => decide (t.2.2 ≤ 3))).length
          = (distances.filter (fun t => decide (t.2.2 ≤ 3))).length :=
        (hperm.filter _).length_eq
      rw [h1, hdistances, List.filter_map, List.length_map]
      exact length_filter_enumFrom
        (fun o => decide (levenshteinDistance (jsToLower value) (jsToLower o) ≤ 3)) 0 options
    rw [hfl_len]
  · intro s hs
    rw [hdef] at hs
    obtain ⟨t, ht, rfl⟩ := List.mem_map.1 hs
    obtain ⟨hget, hd, hle⟩ := hts_facts t ht
    exact ⟨List.get?_mem hget, hd ▸ hle⟩
  · refine ⟨ts, hdef, hts_facts, ?_, ?_⟩
    · have hpair : List.Pairwise distLe ts :=
        List.Pairwise.sublist hsub (List.sorted_insertionSort distLe distances)
      have hnodup_ts : (ts.map Prod.fst).Nodup :=
        List.Nodup.sublist (hsub.map Prod.fst) hnodup_s
      have hne : ts.Pairwise (fun a b => a.1 ≠ b.1) := List.pairwise_map.1 hnodup_ts
      refine (hpair.and hne).imp ?_
      intro a b hab
      obtain ⟨hle, hne2⟩ := hab
      unfold distLe at hle
      omega
    · intro i o hget hqle
      have henum : (i, o) ∈ options.enum := mem_enum_of_getq options i o hget
      have hz : (i, o, levenshteinDistance (jsToLower value) (jsToLower o)) ∈ distances := by
        rw [hdistances]
        exact List.mem_map.2 ⟨(i, o), henum, rfl⟩
      have hzs : (i, o, levenshteinDistance (jsToLower value) (jsToLower o)) ∈ sorted :=
        hperm.mem_iff.2 hz
      have hzf : (i, o, levenshteinDistance (jsToLower value) (jsToLower o))
          ∈ sorted.filter (fun t => decide (t.2.2 ≤ 3)) := by
        refine List.mem_filter.2 ⟨hzs, ?_⟩
        simp only [decide_eq_true_eq]
        exact hqle
      have hsplit : (i, o, levenshteinDistance (jsToLower value) (jsToLower o))
            ∈ (sorted.filter (fun t => decide (t.2.2 ≤ 3))).take k ∨
          (i, o, levenshteinDistance (jsToLower value) (jsToLower o))
            ∈ (sorted.filter (fun t => decide (t.2.2 ≤ 3))).drop k := by
        have h2 : (i, o, levenshteinDistance (jsToLower value) (jsToLower o))
            ∈ (sorted.filter (fun t => decide (t.2.2 ≤ 3))).take k ++
              (sorted.filter (fun t => decide (t.2.2 ≤ 3))).drop k := by
          rw [List.take_append_drop]
          exact hzf
        exact List.mem_append.1 h2
      rcases hsplit with htake | hdrop
      · left
        rw [hts]
        exact htake
      · right
        have hklt : k < (sorted.filter (fun t => decide (t.2.2 ≤ 3))).length := by
          by_contra hk
          push_neg at hk
          rw [List.drop_eq_nil_iff.2 hk] at hdrop
          simp at hdrop
        constructor
        · rw [hts, List.length_take]
          omega
        · intro t htmem
          have htake2 : t ∈ (sorted.filter (fun t => decide (t.2.2 ≤ 3))).take k := by
            rw [hts] at htmem
            exact htmem
          have hpa : List.Pairwise distLe
              ((sorted.filter (fun t => decide (t.2.2 ≤ 3))).take k ++
               (sorted.filter (fun t => decide (t.2.2 ≤ 3))).drop k) := by
            rw [List.take_append_drop]
            exact hpair_fl
          have hrel : distLe t (i, o, levenshteinDistance (jsToLower value) (jsToLower o)) :=
            (List.pairwise_append.1 hpa).2.2 t htake2 _ hdrop
          have hpne : List.Pairwise (fun a b : Nat × String × Nat => a.1 ≠ b.1)
              (sorted.filter (fun t => decide (t.2.2 ≤ 3))) :=
            List.pairwise_map.1 hnodup_fl
          have hpane : List.Pairwise (fun a b : Nat × String × Nat => a.1 ≠ b.1)
              ((sorted.filter (fun t => decide (t.2.2 ≤ 3))).take k ++
               (sorted.filter (fun t => decide (t.2.2 ≤ 3))).drop k) := by
            rw [List.take_append_drop]
            exact hpne
          have hneq : t.1 ≠ (i, o, levenshteinDistance (jsToLower value) (jsToLower o)).1 :=
            (List.pairwise_append.1 hpane).2.2 t htake2 _ hdrop
          unfold distLe at hrel
          simp only at hrel hneq
          omega
  · intro hall
    rw [hdef, hts]
    have hfempty : sorted.filter (fun t => decide (t.2.2 ≤ 3)) = [] := by
      apply List.filter_eq_nil_iff.2
      intro t ht
      have htd : t ∈ distances := hperm.mem_iff.1 ht
      obtain ⟨hget, hd⟩ := hshape t htd
      have hmem : t.2.1 ∈ options := List.get?_mem hget
      have := hall t.2.1 hmem
      simp only [decide_eq_true_eq]
      omega
    rw [hfempty]
    simp

/-- Witness for C8: the conclusion of the specification theorem evaluated
at a concrete misspelled value, together with the concrete result: the one
qualifying candidate Blurring is returned, Staging (distance 6) is not. -/
theorem C8_findClosestMatches_spec_witness :
    findClosestMatches "Blurign" ["Staging", "Blurring"] 3 = ["Blurring"] ∧
    (findClosestMatches "Blurign" ["Staging", "Blurring"] 3).length
      = min 3 ((["Staging", "Blurring"].filter
          (fun o => decide (levenshteinDistance (jsToLower "Blurign") (jsToLower o) ≤ 3))).length) :=
  ⟨by decide, (C8_findClosestMatches_spec "Blurign" ["Staging", "Blurring"] 3).1⟩

/-- Split a character list at every colon (the compound-specification
separator). -/
def splitColon : List Char → List (List Char)
  | [] => [[]]
  | ':' :: rest => [] :: splitColon rest
  | c :: rest =>
    match splitColon rest with
    | t :: ts => (c :: t) :: ts
    | [] => [[c]]

/-- Modelled from the spec: parsing of a compound specification value.  The
final validation.ts (which carries the compound-field pass) is not under
src/; per the spec the value is parsed as left.trim() + colon +
right.trim(), and a value without exactly one colon is silently skipped. -/
def parseCompound (value : String) : Option (String × String) :=
  match splitColon value.data with
  | [l, r] => some (jsTrim (String.mk l), jsTrim (String.mk r))
  | _ => none

example : parseCompound "Blur: Hdr-images" = some ("Blur", "Hdr-images") := by decide
example : parseCompound "no colon here" = none := by decide
example : parseCompound "a:b:c" = none := by decide

/-- Modelled from the spec: whether one raw task row supports the
enhancement:taskProduct pair, that is, its enhancement equals the left side
and its inputs and outputs sequences both contain the right side. -/
def taskRowSupports (left right : String) (row : Val) : Bool :=
  (objLookup row "enhancement" == some (Val.str left)) &&
  (match objLookup row "inputs" with
   | some (Val.arr xs) => xs.contains (Val.str right)
   | _ => false) &&
  (match objLookup row "outputs" with
   | some (Val.arr xs) => xs.contains (Val.str right)
   | _ => false)

/-- Modelled from the spec: the names of the tasks that carry the given
enhancement, attached to the dedicated cross-reference error for
suggestion purposes. -/
def tasksWithEnhancement (left : String) (tasksData : List Val) : List String :=
  tasksData.filterMap (fun row =>
    match objLookup row "enhancement", objLookup row "task" with
    | some (Val.str e), some (Val.str t) => if e = left then some t else none
    | _, _ => none)

/-- Modelled from the spec: the enhancement:taskProduct compound-field
validation pass, absent from src/ (the final validation.ts is not
included; only its caller in src/unnamed/part_003 is).  Per the spec: a
value without exactly one colon is silently skipped; left must be a known
enhancement and right a known taskProduct; if a taskProduct-to-enhancements
relationship entry exists for the right side, left must be in it; and the
raw task batch is cross-referenced to confirm at least one task row whose
enhancement equals left has right in both its inputs and outputs, a
dedicated error naming the tasks that carry the enhancement being emitted
otherwise. -/
def validateEnhancementTaskProduct (rowNum : Nat) (value : String)
    (enhancementOptions taskProductOptions : List String)
    (productEnhancements : List (String × List String))
    (tasksData : List Val) : List ValidationError :=
  match parseCompound value with
  | none => []
  | some (left, right) =>
    (if left ∉ enhancementOptions then
      [⟨rowNum, "enhancement medium specification (enhancement:taskProduct)", left,
        enhancementOptions⟩] else []) ++
    (if right ∉ taskProductOptions then
      [⟨rowNum, "enhancement medium specification (enhancement:taskProduct)", right,
        taskProductOptions⟩] else []) ++
    (match productEnhancements.lookup right with
     | some allowed =>
       if left ∉ allowed then
         [⟨rowNum, "enhancement medium specification (enhancement:taskProduct)", left, allowed⟩]
       else []
     | none => []) ++
    (if tasksData.any (taskRowSupports left right) then []
     else
       [⟨rowNum, "enhancement medium specification (enhancement:taskProduct)", value,
         tasksWithEnhancement left tasksData⟩])

/-- C2: a compound enhancement:taskProduct value passes validation only if
some raw task row has the left side as its enhancement and the right side
in both its inputs and outputs; when no such task row exists, validation
produces an error even if the left side is a known enhancement and the
right side a known taskProduct. -/
theorem C2_enhancement_taskProduct_cross_reference
    (rowNum : Nat) (value left right : String)
    (enhancementOptions taskProductOptions : List String)
    (productEnhancements : List (String × List String)) (tasksData : List Val)
    (hp : parseCompound value = some (left, right))
    (hl : left ∈ enhancementOptions) (hr : right ∈ taskProductOptions) :
    (validateEnhancementTaskProduct rowNum value enhancementOptions taskProductOptions
        productEnhancements tasksData = [] →
      ∃ row ∈ tasksData, taskRowSupports left right row = true) ∧
    ((∀ row ∈ tasksData, taskRowSupports left right row = false) →
      validateEnhancementTaskProduct rowNum value enhancementOptions taskProductOptions
        productEnhancements tasksData ≠ []) := by
  unfold validateEnhancementTaskProduct
  rw [hp]
  constructor
  · intro hempty
    rcases List.append_eq_nil.1 hempty with ⟨h12, h3⟩
    rcases List.append_eq_nil.1 h12 with ⟨h1, h2⟩
    rcases List.append_eq_nil.1 h1 with ⟨_, _⟩
    by_cases hany : tasksData.any (taskRowSupports left right)
    · obtain ⟨row, hrow, hsupp⟩ := List.any_eq_true.1 hany
      exact ⟨row, hrow, hsupp⟩
    · rw [if_neg hany] at h3
      exact absurd h3 (by simp)
  · intro hnone hempty
    rcases List.append_eq_nil.1 hempty with ⟨h12, h3⟩
    have hany : tasksData.any (taskRowSupports left right) = false := by
      rw [List.any_eq_false]
      intro row hrow
      rw [hnone row hrow]
      simp
    rw [if_neg (by rw [hany]; simp)] at h3
    exact absurd h3 (by simp)

/-- Witness for C2 (scenario D): Blur and Hdr-images are both known and the
relationship map even allows them, but no task row carries Hdr-images in
both inputs and outputs, so validation still fails. -/
theorem C2_enhancement_taskProduct_cross_reference_witness :
    validateEnhancementTaskProduct 2 "Blur: Hdr-images" ["Blur"] ["Hdr-images"]
        [("Hdr-images", ["Blur"])]
        [Val.obj [("task", Val.str "Blurring"), ("enhancement", Val.str "Blur"),
          ("inputs", Val.arr []), ("outputs", Val.arr [Val.str "Hdr-images"])]] ≠ [] :=
  (C2_enhancement_taskProduct_cross_reference 2 "Blur: Hdr-images" "Blur" "Hdr-images"
      ["Blur"] ["Hdr-images"] [("Hdr-images", ["Blur"])]
      [Val.obj [("task", Val.str "Blurring"), ("enhancement", Val.str "Blur"),
        ("inputs", Val.arr []), ("outputs", Val.arr [Val.str "Hdr-images"])]]
      (by decide) (by decide) (by decide)).2 (by decide)

/-- Property assignment on a field-to-string-list map (same insertion-order
semantics as setKey). -/
def setKeyS (m : List (String × List String)) (k : String) (v : List String) :
    List (String × List String) :=
  match m with
  | [] => [(k, v)]
  | (k1, v1) :: rest => if k1 = k then (k, v) :: rest else (k1, v1) :: setKeyS rest k v

/-- The inner body of buildTaskProductProducers for one output value:
create the producer list on first sight of the output and append the task
name if it is not already recorded. -/
def addProducer : List (String × List String) → String → String → List (String × List String)
  | [], key, task => [(key, [task])]
  | (k, l) :: rest, key, task =>
    if k = key then (k, if task ∈ l then l else l ++ [task]) :: rest
    else (k, l) :: addProducer rest key task

/-- The loop over one task row's outputs inside buildTaskProductProducers:
skip falsy and whitespace-only outputs, otherwise record the task as a
producer of the output. -/
def producersOutputsFold (acc : List (String × List String)) (task : String)
    (outputs : List Val) : List (String × List String) :=
  outputs.foldl (fun m o =>
    if jsTruthy o && decide (jsTrim (jsToString o) ≠ "") then addProducer m (jsToString o) task
    else m) acc

/-- One row step of buildTaskProductProducers: require truthy task and
outputs values, wrap a scalar outputs value in a singleton array. -/
def producersRowStep (acc : List (String × List String)) (row : Val) :
    List (String × List String) :=
  match objLookup row "task", objLookup row "outputs" with
  | some tv, some ov =>
    if jsTruthy tv && jsTruthy ov then producersOutputsFold acc (jsToString tv) (asArray ov)
    else acc
  | _, _ => acc

/-- buildTaskProductProducers from src: for each task row, append the task
name to the producer list of every non-empty output, deduplicating by task
name in insertion order. -/
def buildTaskProductProducers (tasksData : List Val) : List (String × List String) :=
  tasksData.foldl producersRowStep []

/-- The filtered enhancement list one task-product row contributes:
the row's enhancement-order sequence (or empty when absent or scalar) with
falsy and whitespace-only entries dropped. -/
def enhancementsOf (row : Val) : List String :=
  (match objLookup row "enhancement-order" with
   | some (Val.arr xs) => xs
   | _ => []).filter (fun e => jsTruthy e && decide (jsTrim (jsToString e) ≠ "")) |>.map jsToString

/-- One row step of buildTaskProductEnhancements: a truthy taskProduct name
overwrites the map entry wholesale (last write wins). -/
def enhancementsRowStep (acc : List (String × List String)) (row : Val) :
    List (String × List String) :=
  match objLookup row "taskProduct" with
  | some tpv =>
    if jsTruthy tpv then setKeyS acc (jsToString tpv) (enhancementsOf row) else acc
  | none => acc

/-- buildTaskProductEnhancements from src: map each taskProduct name to its
filtered enhancement-order sequence, later rows overwriting earlier ones. -/
def buildTaskProductEnhancements (taskProductsData : List Val) : List (String × List String) :=
  taskProductsData.foldl enhancementsRowStep []

/-- C9 counterexample: the producers half of the claim holds on this data,
but because buildTaskProductEnhancements is last-write-wins per taskProduct
name, a later duplicate row with an empty enhancement-order erases the E
recorded by the earlier row, so the claim's conclusion that the map entry
includes E fails. -/
theorem C9_counterexample :
    (buildTaskProductProducers
        [Val.obj [("task", Val.str "Blurring"), ("outputs", Val.arr [Val.str "Hdr-images"])]]
      ).lookup "Hdr-images" = some ["Blurring"] ∧
    (buildTaskProductEnhancements
        [Val.obj [("taskProduct", Val.str "Hdr-images"),
           ("enhancement-order", Val.arr [Val.str "Blur"])],
         Val.obj [("taskProduct", Val.str "Hdr-images"),
           ("enhancement-order", Val.arr [])]]
      ).lookup "Hdr-images" = some [] ∧
    "Blur" ∉ ([] : List String) := by
  refine ⟨by decide, by decide, by decide⟩

/-- Membership of a task in the producer list of a key. -/
def producerMem (m : List (String × List String)) (k t : String) : Prop :=
  ∃ l, m.lookup k = some l ∧ t ∈ l

lemma lookup_cons_self {β : Type} (k : String) (v : β) (rest : List (String × β)) :
    ((k, v) :: rest).lookup k = some v := by
  simp [List.lookup_cons]

lemma lookup_cons_ne {β : Type} {k k1 : String} (v : β) (rest : List (String × β))
    (h : k ≠ k1) : ((k1, v) :: rest).lookup k = rest.lookup k := by
  rw [List.lookup_cons]
  have : (k == k1) = false := by simpa using h
  rw [this]

lemma addProducer_self : ∀ (m : List (String × List String)) (key task : String),
    producerMem (addProducer m key task) key task
  | [], key, task => ⟨[task], by simp [addProducer, lookup_cons_self], by simp⟩
  | (k, l) :: rest, key, task => by
    by_cases hk : k = key
    · subst hk
      rw [addProducer, if_pos rfl]
      refine ⟨if task ∈ l then l else l ++ [task], lookup_cons_self _ _ _, ?_⟩
      by_cases hin : task ∈ l
      · simpa [hin] using hin
      · simp [hin]
    · rw [addProducer, if_neg hk]
      obtain ⟨l2, hl2, ht2⟩ := addProducer_self rest key task
      by_cases hkey : key = k
      · exact absurd hkey.symm hk
      · exact ⟨l2, by rwa [lookup_cons_ne _ _ hkey], ht2⟩

lemma addProducer_preserve : ∀ {m : List (String × List String)} {k0 t0 : String}
    (key task : String), producerMem m k0 t0 → producerMem (addProducer m key task) k0 t0 := by
  intro m
  induction m with
  | nil => intro k0 t0 key task h; obtain ⟨l, hl, _⟩ := h; simp [List.lookup] at hl
  | cons kv rest ih =>
    intro k0 t0 key task h
    obtain ⟨k, l⟩ := kv
    obtain ⟨l0, hl0, ht0⟩ := h
    by_cases hk : k = key
    · subst hk
      rw [addProducer, if_pos rfl]
      by_cases h0 : k0 = k
      · subst h0
        rw [lookup_cons_self] at hl0
        simp only [Option.some.injEq] at hl0
        subst hl0
        refine ⟨if task ∈ l then l else l ++ [task], lookup_cons_self _ _ _, ?_⟩
        by_cases hin : task ∈ l <;> simp [hin, ht0]
      · rw [lookup_cons_ne _ _ h0] at hl0
        exact ⟨l0, by rwa [lookup_cons_ne _ _ h0], ht0⟩
    · rw [addProducer, if_neg hk]
      by_cases h0 : k0 = k
      · subst h0
        rw [lookup_cons_self] at hl0
        simp only [Option.some.injEq] at hl0
        subst hl0
        exact ⟨l, lookup_cons_self _ _ _, ht0⟩
      · rw [lookup_cons_ne _ _ h0] at hl0
        obtain ⟨l2, hl2, ht2⟩ := ih key task ⟨l0, hl0, ht0⟩
        exact ⟨l2, by rwa [lookup_cons_ne _ _ h0], ht2⟩

lemma producersOutputsFold_preserve : ∀ (os : List Val) (m : List (String × List String))
    (task : String) {k0 t0 : String}, producerMem m k0 t0 →
    producerMem (producersOutputsFold m task os) k0 t0
  | [], m, task, k0, t0, h => h
  | o :: os1, m, task, k0, t0, h => by
    rw [producersOutputsFold, List.foldl_cons]
    by_cases hg : (jsTruthy o && decide (jsTrim (jsToString o) ≠ "")) = true
    · rw [if_pos hg]
      exact producersOutputsFold_preserve os1 _ task (addProducer_preserve _ _ h)
    · rw [if_neg hg]
      exact producersOutputsFold_preserve os1 _ task h

lemma producersOutputsFold_mem : ∀ (os : List Val) (m : List (String × List String))
    (task P : String), Val.str P ∈ os → jsTrim P ≠ "" →
    producerMem (producersOutputsFold m task os) P task
  | [], _, _, _, h, _ => absurd h (by simp)
  | o :: os1, m, task, P, h, htrim => by
    rw [producersOutputsFold, List.foldl_cons]
    rcases List.mem_cons.1 h with h1 | h1
    · have hPne : P ≠ "" := fun he => htrim (by rw [he]; decide)
      have hg : (jsTruthy o && decide (jsTrim (jsToString o) ≠ "")) = true := by
        rw [← h1]
        simp [jsTruthy, jsToString, hPne, htrim]
      rw [if_pos hg, ← h1]
      have hadd : producerMem (addProducer m (jsToString (Val.str P)) task) P task := by
        simpa [jsToString] using addProducer_self m P task
      exact producersOutputsFold_preserve os1 _ task hadd
    · by_cases hg : (jsTruthy o && decide (jsTrim (jsToString o) ≠ "")) = true
      · rw [if_pos hg]
        exact producersOutputsFold_mem os1 _ task P h1 htrim
      · rw [if_neg hg]
        exact producersOutputsFold_mem os1 _ task P h1 htrim

lemma producersRowStep_preserve {m : List (String × List String)} {k0 t0 : String} (row : Val)
    (h : producerMem m k0 t0) : producerMem (producersRowStep m row) k0 t0 := by
  unfold producersRowStep
  cases objLookup row "task" with
  | none => exact h
  | some tv =>
    cases objLookup row "outputs" with
    | none => exact h
    | some ov =>
      show producerMem (if jsTruthy tv && jsTruthy ov then
          producersOutputsFold m (jsToString tv) (asArray ov) else m) k0 t0
      by_cases hg : (jsTruthy tv && jsTruthy ov) = true
      · rw [if_pos hg]
        exact producersOutputsFold_preserve _ _ _ h
      · rw [if_neg hg]
        exact h

lemma producers_foldl_preserve : ∀ (rows : List Val) (m : List (String × List String))
    {k0 t0 : String}, producerMem m k0 t0 → producerMem (rows.foldl producersRowStep m) k0 t0
  | [], _, _, _, h => h
  | row :: rest, m, k0, t0, h => by
    rw [List.foldl_cons]
    exact producers_foldl_preserve rest _ (producersRowStep_preserve row h)

/-- Every producer list in the map is duplicate-free. -/
def producersNodup (m : List (String × List String)) : Prop :=
  ∀ kv ∈ m, kv.2.Nodup

lemma addProducer_nodup : ∀ (m : List (String × List String)) (key task : String),
    producersNodup m → producersNodup (addProducer m key task)
  | [], key, task, _ => by
    intro kv hm
    rw [addProducer] at hm
    rw [List.mem_singleton.1 hm]
    simp
  | (k, l) :: rest, key, task, h => by
    intro kv hm
    by_cases hk : k = key
    · rw [addProducer, if_pos hk] at hm
      rcases List.mem_cons.1 hm with h1 | h1
      · rw [h1]
        have hl : l.Nodup := h (k, l) (by simp)
        by_cases hin : task ∈ l
        · simpa [hin] using hl
        · simp only [hin, if_false]
          rw [List.nodup_append]
          exact ⟨hl, by simp, List.disjoint_singleton.2 hin⟩
      · exact h kv (List.mem_cons_of_mem _ h1)
    · rw [addProducer, if_neg hk] at hm
      rcases List.mem_cons.1 hm with h1 | h1
      · rw [h1]
        exact h (k, l) (by simp)
      · exact addProducer_nodup rest key task (fun kv2 hm2 => h kv2 (List.mem_cons_of_mem _ hm2)) kv h1

lemma producersOutputsFold_nodup : ∀ (os : List Val) (m : List (String × List String))
    (task : String), producersNodup m → producersNodup (producersOutputsFold m task os)
  | [], _, _, h => h
  | o :: os1, m, task, h => by
    rw [producersOutputsFold, List.foldl_cons]
    by_cases hg : (jsTruthy o && decide (jsTrim (jsToString o) ≠ "")) = true
    · rw [if_pos hg]
      exact producersOutputsFold_nodup os1 _ task (addProducer_nodup m _ task h)
    · rw [if_neg hg]
      exact producersOutputsFold_nodup os1 _ task h

lemma producersRowStep_nodup (m : List (String × List String)) (row : Val)
    (h : producersNodup m) : producersNodup (producersRowStep m row) := by
  unfold producersRowStep
  cases objLookup row "task" with
  | none => exact h
  | some tv =>
    cases objLookup row "outputs" with
    | none => exact h
    | some ov =>
      show producersNodup (if jsTruthy tv && jsTruthy ov then
          producersOutputsFold m (jsToString tv) (asArray ov) else m)
      by_cases hg : (jsTruthy tv && jsTruthy ov) = true
      · rw [if_pos hg]
        exact producersOutputsFold_nodup _ m _ h
      · rw [if_neg hg]
        exact h

lemma producers_foldl_nodup : ∀ (rows : List Val) (m : List (String × List String)),
    producersNodup m → producersNodup (rows.foldl producersRowStep m)
  | [], _, h => h
  | row :: rest, m, h => by
    rw [List.foldl_cons]
    exact producers_foldl_nodup rest _ (producersRowStep_nodup m row h)

lemma setKeyS_lookup_self : ∀ (m : List (String × List String)) (k : String) (v : List String),
    (setKeyS m k v).lookup k = some v
  | [], k, v => by simp [setKeyS, lookup_cons_self]
  | (k1, v1) :: rest, k, v => by
    by_cases hk : k1 = k
    · rw [setKeyS, if_pos hk]
      exact lookup_cons_self _ _ _
    · rw [setKeyS, if_neg hk]
      rw [lookup_cons_ne _ _ (fun he => hk he.symm)]
      exact setKeyS_lookup_self rest k v

lemma setKeyS_lookup_ne : ∀ (m : List (String × List String)) (k : String) (v : List String)
    (k0 : String), k0 ≠ k → (setKeyS m k v).lookup k0 = m.lookup k0
  | [], k, v, k0, h => by
    rw [setKeyS, lookup_cons_ne _ _ h]
  | (k1, v1) :: rest, k, v, k0, h => by
    by_cases hk : k1 = k
    · rw [setKeyS, if_pos hk]
      by_cases h0 : k0 = k1
      · exact absurd (h0.trans hk) h
      · rw [lookup_cons_ne _ _ h, lookup_cons_ne _ _ h0]
    · rw [setKeyS, if_neg hk]
      by_cases h0 : k0 = k1
      · subst h0
        rw [lookup_cons_self, lookup_cons_self]
      · rw [lookup_cons_ne _ _ h0, lookup_cons_ne _ _ h0]
        exact setKeyS_lookup_ne rest k v k0 h

lemma enhancementsRowStep_lookup_preserve {m : List (String × List String)} {P : String}
    {r : Val}
    (h : ∀ tpv, objLookup r "taskProduct" = some tpv → jsTruthy tpv = true → jsToString tpv ≠ P) :
    (enhancementsRowStep m r).lookup P = m.lookup P := by
  unfold enhancementsRowStep
  cases htp : objLookup r "taskProduct" with
  | none => rfl
  | some tpv =>
    show (if jsTruthy tpv then setKeyS m (jsToString tpv) (enhancementsOf r) else m).lookup P
        = m.lookup P
    by_cases hg : jsTruthy tpv = true
    · rw [if_pos hg]
      exact setKeyS_lookup_ne m _ _ P (fun he => h tpv htp hg he.symm)
    · rw [if_neg hg]

lemma enh_foldl_preserve : ∀ (post : List Val) (m : List (String × List String)) {P : String},
    (∀ r ∈ post, ∀ tpv, objLookup r "taskProduct" = some tpv → jsTruthy tpv = true →
      jsToString tpv ≠ P) →
    (post.foldl enhancementsRowStep m).lookup P = m.lookup P
  | [], _, _, _ => rfl
  | r :: rest, m, P, h => by
    rw [List.foldl_cons]
    rw [enh_foldl_preserve rest _ (fun r2 hm2 => h r2 (List.mem_cons_of_mem _ hm2))]
    exact enhancementsRowStep_lookup_preserve (h r (by simp))

/-- C9 (amended): if a task row has task name T (non-empty) and a non-empty
output P in its outputs sequence, then taskProduct_producers maps P to a
duplicate-free list (deduplicated by task name in insertion order) that
contains T; and if a task-product row has taskProduct name P and E
(non-empty) in its enhancement-order sequence, and no LATER row carries the
same truthy taskProduct name P (buildTaskProductEnhancements is
last-write-wins per name), then taskProduct_enhancements maps P to a list
containing E. -/
theorem C9_relationship_maps_amended
    (tasksData : List Val) (taskRow : Val) (T P E : String) (os : List Val)
    (tpPre tpPost : List Val) (tpRow : Val) (es : List Val)
    (h1 : taskRow ∈ tasksData)
    (h2 : objLookup taskRow "task" = some (Val.str T)) (hT : T ≠ "")
    (h3 : objLookup taskRow "outputs" = some (Val.arr os))
    (h4 : Val.str P ∈ os) (hP : jsTrim P ≠ "")
    (h5 : objLookup tpRow "taskProduct" = some (Val.str P))
    (h6 : objLookup tpRow "enhancement-order" = some (Val.arr es))
    (h7 : Val.str E ∈ es) (hE : jsTrim E ≠ "")
    (h8 : ∀ r ∈ tpPost, ∀ tpv, objLookup r "taskProduct" = some tpv →
        jsTruthy tpv = true → jsToString tpv ≠ P) :
    (∃ l, (buildTaskProductProducers tasksData).lookup P = some l ∧ T ∈ l ∧ l.Nodup) ∧
    (∃ l2, (buildTaskProductEnhancements (tpPre ++ tpRow :: tpPost)).lookup P = some l2 ∧
        E ∈ l2) := by
  have hPne : P ≠ "" := fun he => hP (by rw [he]; decide)
  constructor
  · obtain ⟨pre, post, hsplit⟩ := List.append_of_mem h1
    have hstep : ∀ acc, producersRowStep acc taskRow = producersOutputsFold acc T os := by
      intro acc
      unfold producersRowStep
      rw [h2, h3]
      show (if jsTruthy (Val.str T) && jsTruthy (Val.arr os) then
          producersOutputsFold acc (jsToString (Val.str T)) (asArray (Val.arr os)) else acc)
        = producersOutputsFold acc T os
      have hg : (jsTruthy (Val.str T) && jsTruthy (Val.arr os)) = true := by
        simp [jsTruthy, hT]
      rw [if_pos hg]
      rfl
    have hmm : producerMem (buildTaskProductProducers tasksData) P T := by
      rw [hsplit]
      unfold buildTaskProductProducers
      rw [List.foldl_append, List.foldl_cons, hstep]
      exact producers_foldl_preserve post _ (producersOutputsFold_mem os _ T P h4 hP)
    obtain ⟨l, hl, hTl⟩ := hmm
    have hnd : producersNodup (buildTaskProductProducers tasksData) :=
      producers_foldl_nodup tasksData [] (by intro kv hm; simp at hm)
    exact ⟨l, hl, hTl, hnd (P, l) (mem_of_lookup_eq_some hl)⟩
  · unfold buildTaskProductEnhancements
    rw [List.foldl_append, List.foldl_cons]
    have hstep : enhancementsRowStep (tpPre.foldl enhancementsRowStep []) tpRow
        = setKeyS (tpPre.foldl enhancementsRowStep []) P (enhancementsOf tpRow) := by
      unfold enhancementsRowStep
      rw [h5]
      show (if jsTruthy (Val.str P) then
          setKeyS (tpPre.foldl enhancementsRowStep []) (jsToString (Val.str P))
            (enhancementsOf tpRow)
        else tpPre.foldl enhancementsRowStep [])
        = setKeyS (tpPre.foldl enhancementsRowStep []) P (enhancementsOf tpRow)
      have hg : jsTruthy (Val.str P) = true := by simp [jsTruthy, hPne]
      rw [if_pos hg]
      rfl
    rw [hstep, enh_foldl_preserve tpPost _ h8, setKeyS_lookup_self]
    refine ⟨enhancementsOf tpRow, rfl, ?_⟩
    unfold enhancementsOf
    rw [h6]
    apply List.mem_map.2
    refine ⟨Val.str E, ?_, rfl⟩
    apply List.mem_filter.2
    refine ⟨h7, ?_⟩
    have hEne : E ≠ "" := fun he => hE (by rw [he]; decide)
    simp [jsTruthy, jsToString, hEne, hE]

/-- Witness for C9: scenario C with single rows — Blurring produces
Hdr-images, and Hdr-images carries the Blur enhancement. -/
theorem C9_relationship_maps_amended_witness :
    (∃ l, (buildTaskProductProducers
        [Val.obj [("task", Val.str "Blurring"), ("outputs", Val.arr [Val.str "Hdr-images"])]]
      ).lookup "Hdr-images" = some l ∧ "Blurring" ∈ l ∧ l.Nodup) ∧
    (∃ l2, (buildTaskProductEnhancements
        ([] ++ Val.obj [("taskProduct", Val.str "Hdr-images"),
            ("enhancement-order", Val.arr [Val.str "Blur"])] :: [])
      ).lookup "Hdr-images" = some l2 ∧ "Blur" ∈ l2) :=
  C9_relationship_maps_amended
    [Val.obj [("task", Val.str "Blurring"), ("outputs", Val.arr [Val.str "Hdr-images"])]]
    (Val.obj [("task", Val.str "Blurring"), ("outputs", Val.arr [Val.str "Hdr-images"])])
    "Blurring" "Hdr-images" "Blur" [Val.str "Hdr-images"]
    [] [] (Val.obj [("taskProduct", Val.str "Hdr-images"),
      ("enhancement-order", Val.arr [Val.str "Blur"])]) [Val.str "Blur"]
    (by decide) (by decide) (by decide) (by decide) (by decide) (by decide)
    (by decide) (by decide) (by decide) (by decide)
    (by intro r hr; simp at hr)

/-- The UTF-16 code units of one character (surrogate pair above the basic
plane). -/
def charUtf16 (c : Char) : List Nat :=
  if c.toNat < 0x10000 then [c.toNat]
  else [0xD800 + (c.toNat - 0x10000) / 0x400, 0xDC00 + (c.toNat - 0x10000) % 0x400]

/-- The UTF-16 code units of a string (the units JS string comparison, and
hence the default Array.sort comparator, works on). -/
def utf16Units (s : String) : List Nat :=
  s.data.flatMap charUtf16

/-- Lexicographic comparison of code-unit sequences. -/
def lexLeB : List Nat → List Nat → Bool
  | [], _ => true
  | _ :: _, [] => false
  | a :: as, b :: bs => if a < b then true else if b < a then false else lexLeB as bs

/-- The default JS Array.prototype.sort order on strings: lexicographic by
UTF-16 code units. -/
def strLe (a b : String) : Prop :=
  lexLeB (utf16Units a) (utf16Units b) = true

instance : DecidableRel strLe := fun a b =>
  decidable_of_iff (lexLeB (utf16Units a) (utf16Units b) = true) Iff.rfl

lemma lexLeB_total : ∀ (as bs : List Nat), lexLeB as bs = true ∨ lexLeB bs as = true
  | [], _ => Or.inl rfl
  | _ :: _, [] => Or.inr rfl
  | a :: as, b :: bs => by
    rw [lexLeB, lexLeB]
    rcases Nat.lt_trichotomy a b with h | h | h
    · left; simp [h]
    · subst h
      simp only [Nat.lt_irrefl, if_false]
      exact lexLeB_total as bs
    · right; simp [h]

lemma lexLeB_trans : ∀ (as bs cs : List Nat),
    lexLeB as bs = true → lexLeB bs cs = true → lexLeB as cs = true
  | [], _, _, _, _ => rfl
  | _ :: _, [], _, hab, _ => by rw [lexLeB] at hab; exact absurd hab (by simp)
  | _ :: _, _ :: _, [], _, hbc => by rw [lexLeB] at hbc; exact absurd hbc (by simp)
  | a :: as, b :: bs, c :: cs, hab, hbc => by
    rw [lexLeB] at hab hbc ⊢
    by_cases h1 : a < b
    · by_cases h2 : b < c
      · have : a < c := Nat.lt_trans h1 h2
        simp [this]
      · by_cases h3 : c < b
        · rw [if_neg h2, if_pos h3] at hbc
          exact absurd hbc (by simp)
        · have hbceq : b = c := Nat.le_antisymm (Nat.le_of_not_lt h3) (Nat.le_of_not_lt h2)
          subst hbceq
          simp [h1]
    · by_cases h4 : b < a
      · rw [if_neg h1, if_pos h4] at hab
        exact absurd hab (by simp)
      · have habeq : a = b := Nat.le_antisymm (Nat.le_of_not_lt h4) (Nat.le_of_not_lt h1)
        subst habeq
        rw [if_neg h1, if_neg h4] at hab
        by_cases h2 : a < c
        · simp [h2]
        · by_cases h3 : c < a
          · rw [if_neg h2, if_pos h3] at hbc
            exact absurd hbc (by simp)
          · rw [if_neg h2, if_neg h3] at hbc ⊢
            exact lexLeB_trans as bs cs hab hbc

instance : IsTotal String strLe :=
  ⟨fun a b => lexLeB_total (utf16Units a) (utf16Units b)⟩

instance : IsTrans String strLe :=
  ⟨fun a b c => lexLeB_trans (utf16Units a) (utf16Units b) (utf16Units c)⟩

/-- The default JS Array.prototype.sort() on the (distinct) learned value
strings: any comparison sort of distinct elements under this total order
yields the same list, modelled with insertion sort. -/
def jsSortStrings (l : List String) : List String :=
  List.insertionSort strLe l

/-- One insertion into a JS Set (insertion-order, first occurrence kept). -/
def insertNew (acc : List String) (x : String) : List String :=
  if x ∈ acc then acc else acc ++ [x]

/-- values.add(String(v).trim()) guarded by the truthiness of the trimmed
string, as in extractUniqueValues. -/
def addTrimmed (acc : List String) (v : Val) : List String :=
  if jsTrim (jsToString v) ≠ "" then insertNew acc (jsTrim (jsToString v)) else acc

/-- The value branch of extractUniqueValues: skip null and empty-string
field values; gather each element of an array value, or the scalar value
itself, trimmed and non-empty. -/
def extractFieldValues (acc : List String) (fv : Val) : List String :=
  if fv = Val.null ∨ fv = Val.str "" then acc
  else
    match fv with
    | Val.arr xs => xs.foldl addTrimmed acc
    | _ => addTrimmed acc fv

/-- The per-row body of extractUniqueValues (absent fields contribute
nothing). -/
def extractRowStep (fieldName : String) (acc : List String) (row : Val) : List String :=
  match objLookup row fieldName with
  | none => acc
  | some fv => extractFieldValues acc fv

/-- extractUniqueValues from src: gather the unique trimmed non-empty
values of the field over all rows (Set semantics, insertion order), then
sort. -/
def extractUniqueValues (rows : List Val) (fieldName : String) : List String :=
  jsSortStrings (rows.foldl (extractRowStep fieldName) [])

/-- The spread of a JS Set built from a list: first occurrences in order. -/
def dedupPreservingOrder (l : List String) : List String :=
  l.foldl insertNew []

/-- updateAvailableOptions from src: union the new values into the existing
entry, deduplicate, sort, and write the entry back. -/
def updateAvailableOptions (doc : List (String × List String)) (fieldName : String)
    (values : List String) : List (String × List String) :=
  setKeyS doc fieldName
    (jsSortStrings (dedupPreservingOrder ((doc.lookup fieldName).getD [] ++ values)))

example : extractUniqueValues
    [Val.obj [("task", Val.str " b ")], Val.obj [("task", Val.str "a")],
     Val.obj [("task", Val.arr [Val.str "c", Val.str "a", Val.str " "])]] "task"
    = ["a", "b", "c"] := by decide

example : updateAvailableOptions [("task", ["b", "d"])] "task" ["a", "d"]
    = [("task", ["a", "b", "d"])] := by decide

/-- What the pipeline finds at one input path: no file, unparseable JSON,
or a parsed JSON value. -/
inductive FileContent where
  | missing
  | invalidJson
  | parsed (v : Val)

/-- One entry of the fixed processing order of transform_from_json: the
file name, the fields to learn from it, whether to validate it first, and
the content found on disk. -/
structure PhaseStep where
  file : String
  learnFields : List String
  validate : Bool
  content : FileContent

/-- The pipeline state threaded through steps: the available_options.json
document (initialized empty by initializeAvailableOptions and read back by
loadFieldOptions — the disk round trip of the freshly written JSON is
modelled as the in-memory document), the success/error counters, and the
flattened batches emitted to the Excel writer. -/
structure PipelineState where
  options : List (String × List String)
  successCount : Nat
  errorCount : Nat
  converted : List (List (List (String × Val)))
deriving DecidableEq

/-- The learning loop of a step: for each configured field, extract the
unique values and merge non-empty extractions into the document. -/
def learnFrom (doc : List (String × List String)) (rows : List Val)
    (fields : List String) : List (String × List String) :=
  fields.foldl (fun d fieldName =>
    if (extractUniqueValues rows fieldName).length > 0 then
      updateAvailableOptions d fieldName (extractUniqueValues rows fieldName)
    else d) doc

/-- flattenObject applied to one row of an array batch (iterating a
non-object yields no keys). -/
def flattenRow (r : Val) : List (String × Val) :=
  match r with
  | Val.obj fs => flattenObject fs ""
  | _ => []

/-- One iteration of the transform_from_json loop over the processing
order (src/src/index.ts): skip a missing file silently; count a parse
failure or an empty payload as an error; when the step validates, run
validateData against the current document and on any error count the
dataset as failed and continue, leaving the document untouched and
emitting nothing; otherwise learn the configured fields, flatten and emit
the batch, and count a success (a payload that is neither array nor
object errors after learning, as in the source). -/
def processStep (s : PipelineState) (st : PhaseStep) : PipelineState :=
  match st.content with
  | .missing => s
  | .invalidJson => { s with errorCount := s.errorCount + 1 }
  | .parsed v =>
    if jsTruthy v = false ∨ v = Val.arr [] then { s with errorCount := s.errorCount + 1 }
    else
      if st.validate ∧ validateData (asArray v) s.options ≠ [] then
        { s with errorCount := s.errorCount + 1 }
      else
        match v with
        | Val.arr xs =>
          { s with
            options := learnFrom s.options (asArray v) st.learnFields,
            successCount := s.successCount + 1,
            converted := s.converted ++ [xs.map flattenRow] }
        | Val.obj fs =>
          { s with
            options := learnFrom s.options (asArray v) st.learnFields,
            successCount := s.successCount + 1,
            converted := s.converted ++ [[flattenObject fs ""]] }
        | _ =>
          { s with
            options := learnFrom s.options (asArray v) st.learnFields,
            errorCount := s.errorCount + 1 }

/-- The state after initializeAvailableOptions: an empty document, zero
counters, nothing converted. -/
def initialPipelineState : PipelineState := ⟨[], 0, 0, []⟩

/-- The full pass of transform_from_json over the processing order. -/
def runPipeline (steps : List PhaseStep) (s : PipelineState) : PipelineState :=
  steps.foldl processStep s

/-- C6: when validating a dataset produces at least one ValidationError,
the step increments the error counter and changes nothing else — the
options document is exactly as before the dataset, nothing is learned, and
no conversion output is emitted — and the pipeline proceeds to the
remaining datasets from that state. -/
theorem C6_validation_failure_semantics (s : PipelineState) (st : PhaseStep)
    (rest : List PhaseStep) (v : Val)
    (hc : st.content = .parsed v) (hv : st.validate = true)
    (hne : ¬(jsTruthy v = false ∨ v = Val.arr []))
    (herr : validateData (asArray v) s.options ≠ []) :
    processStep s st = { s with errorCount := s.errorCount + 1 } ∧
    runPipeline (st :: rest) s = runPipeline rest { s with errorCount := s.errorCount + 1 } := by
  obtain ⟨file, learnFields, validateFlag, content⟩ := st
  simp only at hc hv
  subst hc
  have h1 : processStep s ⟨file, learnFields, validateFlag, .parsed v⟩
      = { s with errorCount := s.errorCount + 1 } := by
    simp only [processStep]
    rw [if_neg hne, if_pos ⟨hv, herr⟩]
  refine ⟨h1, ?_⟩
  rw [runPipeline, List.foldl_cons, h1]
  rfl

/-- Witness for C6: a services row with an unknown task value fails
validation against the learned options, and the step only bumps the error
counter. -/
theorem C6_validation_failure_semantics_witness :
    processStep ⟨[("task", ["A"])], 1, 0, []⟩
        ⟨"blueprint_services.json", [], true, .parsed (Val.arr [Val.obj [("task", Val.str "B")]])⟩
      = ⟨[("task", ["A"])], 1, 1, []⟩ ∧
    runPipeline [⟨"blueprint_services.json", [], true,
        .parsed (Val.arr [Val.obj [("task", Val.str "B")]])⟩] ⟨[("task", ["A"])], 1, 0, []⟩
      = runPipeline [] ⟨[("task", ["A"])], 1, 1, []⟩ :=
  C6_validation_failure_semantics ⟨[("task", ["A"])], 1, 0, []⟩
    ⟨"blueprint_services.json", [], true, .parsed (Val.arr [Val.obj [("task", Val.str "B")]])⟩
    [] (Val.arr [Val.obj [("task", Val.str "B")]]) rfl rfl (by decide) (by decide)

/-- A value as stored in the learned-options document: non-empty and equal
to a trim of something. -/
def learnedValueGood (x : String) : Prop :=
  x ≠ "" ∧ ∃ y, x = jsTrim y

/-- The invariant of one learned option list: sorted, duplicate-free, all
values trimmed and non-empty. -/
def optionEntryGood (l : List String) : Prop :=
  List.Sorted strLe l ∧ l.Nodup ∧ ∀ x ∈ l, learnedValueGood x

/-- The invariant of the learned part of the options document. -/
def optionsDocGood (doc : List (String × List String)) : Prop :=
  ∀ kv ∈ doc, optionEntryGood kv.2

lemma insertNew_mem {acc : List String} {x z : String} (h : z ∈ insertNew acc x) :
    z ∈ acc ∨ z = x := by
  unfold insertNew at h
  by_cases hm : x ∈ acc
  · rw [if_pos hm] at h
    exact Or.inl h
  · rw [if_neg hm] at h
    rcases List.mem_append.1 h with h1 | h1
    · exact Or.inl h1
    · exact Or.inr (List.mem_singleton.1 h1)

lemma insertNew_nodup {acc : List String} {x : String} (h : acc.Nodup) :
    (insertNew acc x).Nodup := by
  unfold insertNew
  by_cases hm : x ∈ acc
  · rwa [if_pos hm]
  · rw [if_neg hm, List.nodup_append]
    exact ⟨h, by simp, List.disjoint_singleton.2 hm⟩

lemma addTrimmed_mem {acc : List String} {v : Val} {z : String} (h : z ∈ addTrimmed acc v) :
    z ∈ acc ∨ z = jsTrim (jsToString v) := by
  unfold addTrimmed at h
  by_cases hg : jsTrim (jsToString v) ≠ ""
  · rw [if_pos hg] at h
    exact insertNew_mem h
  · rw [if_neg hg] at h
    exact Or.inl h

lemma addTrimmed_nodup {acc : List String} {v : Val} (h : acc.Nodup) :
    (addTrimmed acc v).Nodup := by
  unfold addTrimmed
  by_cases hg : jsTrim (jsToString v) ≠ ""
  · rw [if_pos hg]
    exact insertNew_nodup h
  · rwa [if_neg hg]

lemma addTrimmed_good {acc : List String} {v : Val}
    (h : ∀ z ∈ acc, learnedValueGood z) : ∀ z ∈ addTrimmed acc v, learnedValueGood z := by
  intro z hz
  unfold addTrimmed at hz
  by_cases hg : jsTrim (jsToString v) ≠ ""
  · rw [if_pos hg] at hz
    rcases insertNew_mem hz with h1 | h1
    · exact h z h1
    · exact ⟨h1 ▸ hg, jsToString v, h1⟩
  · rw [if_neg hg] at hz
    exact h z hz

lemma arrFold_mem : ∀ (xs : List Val) (acc : List String) {z : String},
    z ∈ xs.foldl addTrimmed acc → z ∈ acc ∨ ∃ w ∈ xs, z = jsTrim (jsToString w)
  | [], _, _, h => Or.inl h
  | x :: xs1, acc, z, h => by
    rw [List.foldl_cons] at h
    rcases arrFold_mem xs1 (addTrimmed acc x) h with h1 | h1
    · rcases addTrimmed_mem h1 with h2 | h2
      · exact Or.inl h2
      · exact Or.inr ⟨x, by simp, h2⟩
    · obtain ⟨w, hw, hz⟩ := h1
      exact Or.inr ⟨w, List.mem_cons_of_mem _ hw, hz⟩

lemma arrFold_nodup : ∀ (xs : List Val) (acc : List String), acc.Nodup →
    (xs.foldl addTrimmed acc).Nodup
  | [], _, h => h
  | x :: xs1, acc, h => by
    rw [List.foldl_cons]
    exact arrFold_nodup xs1 _ (addTrimmed_nodup h)

lemma arrFold_good : ∀ (xs : List Val) (acc : List String),
    (∀ z ∈ acc, learnedValueGood z) → ∀ z ∈ xs.foldl addTrimmed acc, learnedValueGood z
  | [], _, h => h
  | x :: xs1, acc, h => by
    rw [List.foldl_cons]
    exact arrFold_good xs1 _ (addTrimmed_good h)

lemma extractFieldValues_mem {acc : List String} {fv : Val} {z : String}
    (h : z ∈ extractFieldValues acc fv) :
    z ∈ acc ∨ ∃ w ∈ asArray fv, z = jsTrim (jsToString w) := by
  unfold extractFieldValues at h
  by_cases hg : fv = Val.null ∨ fv = Val.str ""
  · rw [if_pos hg] at h
    exact Or.inl h
  · rw [if_neg hg] at h
    cases fv with
    | arr xs =>
      rcases arrFold_mem xs acc h with h1 | h1
      · exact Or.inl h1
      · obtain ⟨w, hw, hz⟩ := h1
        exact Or.inr ⟨w, by simpa [asArray] using hw, hz⟩
    | null =>
      rcases addTrimmed_mem h with h1 | h1
      · exact Or.inl h1
      · exact Or.inr ⟨Val.null, by simp [asArray], h1⟩
    | bool b =>
      rcases addTrimmed_mem h with h1 | h1
      · exact Or.inl h1
      · exact Or.inr ⟨Val.bool b, by simp [asArray], h1⟩
    | str t =>
      rcases addTrimmed_mem h with h1 | h1
      · exact Or.inl h1
      · exact Or.inr ⟨Val.str t, by simp [asArray], h1⟩
    | num n =>
      rcases addTrimmed_mem h with h1 | h1
      · exact Or.inl h1
      · exact Or.inr ⟨Val.num n, by simp [asArray], h1⟩
    | obj g =>
      rcases addTrimmed_mem h with h1 | h1
      · exact Or.inl h1
      · exact Or.inr ⟨Val.obj g, by simp [asArray], h1⟩

lemma extractRowStep_mem {f : String} {acc : List String} {row : Val} {z : String}
    (h : z ∈ extractRowStep f acc row) :
    z ∈ acc ∨ ∃ fv, objLookup row f = some fv ∧ ∃ w ∈ asArray fv, z = jsTrim (jsToString w) := by
  unfold extractRowStep at h
  cases hl : objLookup row f with
  | none => rw [hl] at h; exact Or.inl h
  | some fv =>
    rw [hl] at h
    rcases extractFieldValues_mem h with h1 | h1
    · exact Or.inl h1
    · obtain ⟨w, hw, hz⟩ := h1
      exact Or.inr ⟨fv, rfl, w, hw, hz⟩

lemma extractFieldValues_nodup {acc : List String} {fv : Val} (h : acc.Nodup) :
    (extractFieldValues acc fv).Nodup := by
  unfold extractFieldValues
  by_cases hg : fv = Val.null ∨ fv = Val.str ""
  · rwa [if_pos hg]
  · rw [if_neg hg]
    cases fv with
    | arr xs => exact arrFold_nodup xs acc h
    | null => exact addTrimmed_nodup h
    | bool b => exact addTrimmed_nodup h
    | str t => exact addTrimmed_nodup h
    | num n => exact addTrimmed_nodup h
    | obj g => exact addTrimmed_nodup h

lemma extractRowStep_nodup {f : String} {acc : List String} {row : Val} (h : acc.Nodup) :
    (extractRowStep f acc row).Nodup := by
  unfold extractRowStep
  cases objLookup row f with
  | none => exact h
  | some fv => exact extractFieldValues_nodup h

lemma extractFieldValues_good {acc : List String} {fv : Val}
    (h : ∀ z ∈ acc, learnedValueGood z) : ∀ z ∈ extractFieldValues acc fv, learnedValueGood z := by
  unfold extractFieldValues
  by_cases hg : fv = Val.null ∨ fv = Val.str ""
  · rwa [if_pos hg]
  · rw [if_neg hg]
    cases fv with
    | arr xs => exact arrFold_good xs acc h
    | null => exact addTrimmed_good h
    | bool b => exact addTrimmed_good h
    | str t => exact addTrimmed_good h
    | num n => exact addTrimmed_good h
    | obj g => exact addTrimmed_good h

lemma extractRowStep_good {f : String} {acc : List String} {row : Val}
    (h : ∀ z ∈ acc, learnedValueGood z) : ∀ z ∈ extractRowStep f acc row, learnedValueGood z := by
  unfold extractRowStep
  cases objLookup row f with
  | none => exact h
  | some fv => exact extractFieldValues_good h

lemma rowsFold_mem : ∀ (rows : List Val) (f : String) (acc : List String) {z : String},
    z ∈ rows.foldl (extractRowStep f) acc →
    z ∈ acc ∨ ∃ row ∈ rows, ∃ fv, objLookup row f = some fv ∧
      ∃ w ∈ asArray fv, z = jsTrim (jsToString w)
  | [], _, _, _, h => Or.inl h
  | row :: rest, f, acc, z, h => by
    rw [List.foldl_cons] at h
    rcases rowsFold_mem rest f (extractRowStep f acc row) h with h1 | h1
    · rcases extractRowStep_mem h1 with h2 | h2
      · exact Or.inl h2
      · obtain ⟨fv, hfv, w, hw, hz⟩ := h2
        exact Or.inr ⟨row, by simp, fv, hfv, w, hw, hz⟩
    · obtain ⟨row2, hrow2, rest2⟩ := h1
      exact Or.inr ⟨row2, List.mem_cons_of_mem _ hrow2, rest2⟩

lemma rowsFold_nodup : ∀ (rows : List Val) (f : String) (acc : List String), acc.Nodup →
    (rows.foldl (extractRowStep f) acc).Nodup
  | [], _, _, h => h
  | row :: rest, f, acc, h => by
    rw [List.foldl_cons]
    exact rowsFold_nodup rest f _ (extractRowStep_nodup h)

lemma rowsFold_good : ∀ (rows : List Val) (f : String) (acc : List String),
    (∀ z ∈ acc, learnedValueGood z) →
    ∀ z ∈ rows.foldl (extractRowStep f) acc, learnedValueGood z
  | [], _, _, h => h
  | row :: rest, f, acc, h => by
    rw [List.foldl_cons]
    exact rowsFold_good rest f _ (extractRowStep_good h)

lemma mem_setKeyS : ∀ {m : List (String × List String)} {k : String} {v : List String}
    {kv : String × List String}, kv ∈ setKeyS m k v → kv = (k, v) ∨ kv ∈ m := by
  intro m
  induction m with
  | nil => intro k v kv h; exact Or.inl (by simpa [setKeyS] using h)
  | cons kv1 rest ih =>
    intro k v kv h
    obtain ⟨k1, v1⟩ := kv1
    by_cases hk : k1 = k
    · rw [setKeyS, if_pos hk] at h
      rcases List.mem_cons.1 h with h1 | h1
      · exact Or.inl h1
      · exact Or.inr (List.mem_cons_of_mem _ h1)
    · rw [setKeyS, if_neg hk] at h
      rcases List.mem_cons.1 h with h1 | h1
      · exact Or.inr (h1 ▸ List.mem_cons_self _ _)
      · rcases ih h1 with h2 | h2
        · exact Or.inl h2
        · exact Or.inr (List.mem_cons_of_mem _ h2)

lemma foldl_insertNew_nodup : ∀ (l acc : List String), acc.Nodup →
    (l.foldl insertNew acc).Nodup
  | [], _, h => h
  | x :: rest, acc, h => by
    rw [List.foldl_cons]
    exact foldl_insertNew_nodup rest _ (insertNew_nodup h)

lemma foldl_insertNew_mem : ∀ (l acc : List String) {z : String},
    z ∈ l.foldl insertNew acc → z ∈ acc ∨ z ∈ l
  | [], _, _, h => Or.inl h
  | x :: rest, acc, z, h => by
    rw [List.foldl_cons] at h
    rcases foldl_insertNew_mem rest _ h with h1 | h1
    · rcases insertNew_mem h1 with h2 | h2
      · exact Or.inl h2
      · exact Or.inr (h2 ▸ List.mem_cons_self _ _)
    · exact Or.inr (List.mem_cons_of_mem _ h1)

lemma dedup_nodup (l : List String) : (dedupPreservingOrder l).Nodup :=
  foldl_insertNew_nodup l [] (by simp)

lemma dedup_mem {l : List String} {z : String} (h : z ∈ dedupPreservingOrder l) : z ∈ l := by
  rcases foldl_insertNew_mem l [] h with h1 | h1
  · simp at h1
  · exact h1

lemma extractUniqueValues_good (rows : List Val) (f : String) :
    ∀ x ∈ extractUniqueValues rows f, learnedValueGood x := by
  intro x hx
  have hx2 : x ∈ rows.foldl (extractRowStep f) [] :=
    (List.perm_insertionSort strLe _).mem_iff.1 hx
  exact rowsFold_good rows f [] (by simp) x hx2

lemma updateAvailableOptions_good (doc : List (String × List String)) (f : String)
    (values : List String) (hv : ∀ x ∈ values, learnedValueGood x)
    (hdoc : optionsDocGood doc) : optionsDocGood (updateAvailableOptions doc f values) := by
  intro kv hm
  unfold updateAvailableOptions at hm
  rcases mem_setKeyS hm with h1 | h1
  · rw [h1]
    refine ⟨List.sorted_insertionSort strLe _, ?_, ?_⟩
    · exact ((List.perm_insertionSort strLe _).nodup_iff).2 (dedup_nodup _)
    · intro x hx
      have hx2 := dedup_mem ((List.perm_insertionSort strLe _).mem_iff.1 hx)
      rcases List.mem_append.1 hx2 with h2 | h2
      · cases hl : doc.lookup f with
        | none => rw [hl] at h2; simp at h2
        | some ex =>
          rw [hl] at h2
          exact (hdoc (f, ex) (mem_of_lookup_eq_some hl)).2.2 x (by simpa using h2)
      · exact hv x h2
  · exact hdoc kv h1

lemma learnFrom_good : ∀ (fields : List String) (doc : List (String × List String))
    (rows : List Val), optionsDocGood doc → optionsDocGood (learnFrom doc rows fields)
  | [], doc, rows, h => h
  | f :: fs, doc, rows, h => by
    rw [learnFrom, List.foldl_cons]
    have hstep : optionsDocGood (if (extractUniqueValues rows f).length > 0 then
        updateAvailableOptions doc f (extractUniqueValues rows f) else doc) := by
      by_cases hg : (extractUniqueValues rows f).length > 0
      · rw [if_pos hg]
        exact updateAvailableOptions_good doc f _ (extractUniqueValues_good rows f) h
      · rwa [if_neg hg]
    exact learnFrom_good fs _ rows hstep

lemma processStep_options_good {s : PipelineState} (st : PhaseStep)
    (h : optionsDocGood s.options) : optionsDocGood (processStep s st).options := by
  obtain ⟨file, learnFields, validateFlag, content⟩ := st
  cases content with
  | missing => exact h
  | invalidJson => exact h
  | parsed v =>
    simp only [processStep]
    split
    · exact h
    · split
      · exact h
      · split
        · exact learnFrom_good learnFields s.options _ h
        · exact learnFrom_good learnFields s.options _ h
        · exact learnFrom_good learnFields s.options _ h

lemma runPipeline_options_good : ∀ (steps : List PhaseStep) (s : PipelineState),
    optionsDocGood s.options → optionsDocGood (runPipeline steps s).options
  | [], _, h => h
  | st :: rest, s, h => by
    rw [runPipeline, List.foldl_cons]
    exact runPipeline_options_good rest _ (processStep_options_good st h)

/-- C10: extractUniqueValues yields a sorted, duplicate-free list of
trimmed, non-empty values drawn from both scalar and array-valued fields
of the rows; updateAvailableOptions always writes a sorted, duplicate-free
entry and preserves the document invariant; hence after initialization
every learned option list in the pipeline document is sorted, unique, and
free of empty strings. -/
theorem C10_learned_options_invariants :
    (∀ (rows : List Val) (f : String),
        List.Sorted strLe (extractUniqueValues rows f) ∧
        (extractUniqueValues rows f).Nodup ∧
        (∀ x ∈ extractUniqueValues rows f, x ≠ "" ∧ ∃ y, x = jsTrim y) ∧
        (∀ x ∈ extractUniqueValues rows f, ∃ row ∈ rows, ∃ fv,
            objLookup row f = some fv ∧ ∃ w ∈ asArray fv, x = jsTrim (jsToString w))) ∧
    (∀ (doc : List (String × List String)) (f : String) (values : List String),
        (∀ x ∈ values, x ≠ "" ∧ ∃ y, x = jsTrim y) → optionsDocGood doc →
        optionsDocGood (updateAvailableOptions doc f values)) ∧
    (∀ steps : List PhaseStep, optionsDocGood (runPipeline steps initialPipelineState).options) := by
  refine ⟨?_, ?_, ?_⟩
  · intro rows f
    refine ⟨List.sorted_insertionSort strLe _, ?_, extractUniqueValues_good rows f, ?_⟩
    · exact ((List.perm_insertionSort strLe _).nodup_iff).2 (rowsFold_nodup rows f [] (by simp))
    · intro x hx
      have hx2 : x ∈ rows.foldl (extractRowStep f) [] :=
        (List.perm_insertionSort strLe _).mem_iff.1 hx
      rcases rowsFold_mem rows f [] hx2 with h1 | h1
      · simp at h1
      · exact h1
  · exact updateAvailableOptions_good
  · intro steps
    exact runPipeline_options_good steps initialPipelineState
      (by intro kv hm; simp [initialPipelineState] at hm)

/-- Witness for C10: a concrete extraction is sorted, unique and free of
empty strings, and a concrete learning run produces a well-formed entry. -/
theorem C10_learned_options_invariants_witness :
    extractUniqueValues
        [Val.obj [("task", Val.str " b ")], Val.obj [("task", Val.arr [Val.str "a", Val.str " "])]]
        "task" = ["a", "b"] ∧
    List.Sorted strLe (extractUniqueValues
        [Val.obj [("task", Val.str " b ")], Val.obj [("task", Val.arr [Val.str "a", Val.str " "])]]
        "task") :=
  ⟨by decide,
   (C10_learned_options_invariants.1
      [Val.obj [("task", Val.str " b ")], Val.obj [("task", Val.arr [Val.str "a", Val.str " "])]]
      "task").1⟩
